import Mathlib

/-!
Verification of the github-advanced-db core: a shallow embedding of the
transfer/transaction coordinator (`src/transaction/TransactionEngine.ts`),
the serialized write queue (`StorageManager`), and the format-codec layer
(`src/formatters/*`), together with theorems settling the specification
claims about them.

Modelling conventions:
* JavaScript strings are modelled as Lean `String`/`List Char`.
* JSON values are modelled by the inductive `Json`; numeric literals are
  restricted to integers (the repository only round-trips integral values;
  IEEE-754 doubles are not representable faithfully).  `JSON.parse` /
  `JSON.stringify` of the JavaScript runtime are embedded by `jsonParse` /
  `jsonStringify` below, following the ECMA-404 grammar (objects keep the
  textual field order, as JavaScript objects preserve insertion order).
* Fallible operations return `Except String` / `Option`.
-/

namespace GithubDB

/-! ### JSON values -/

/-- A JSON value as produced by the JavaScript runtime.  Objects are
insertion-ordered association lists, mirroring JavaScript object semantics. -/
inductive Json where
  | null : Json
  | bool (b : Bool) : Json
  | num (n : Int) : Json
  | str (s : String) : Json
  | arr (elements : List Json) : Json
  | obj (fields : List (String × Json)) : Json
deriving Repr

mutual

/-- Structural equality of JSON values (DecidableEq cannot be derived for
the nested inductive). -/
def Json.beq : Json → Json → Bool
  | .null, .null => true
  | .bool a, .bool b => a = b
  | .num a, .num b => a = b
  | .str a, .str b => a = b
  | .arr a, .arr b => Json.beqList a b
  | .obj a, .obj b => Json.beqFields a b
  | _, _ => false

def Json.beqList : List Json → List Json → Bool
  | [], [] => true
  | x :: xs, y :: ys => Json.beq x y && Json.beqList xs ys
  | _, _ => false

def Json.beqFields : List (String × Json) → List (String × Json) → Bool
  | [], [] => true
  | (k, v) :: xs, (k2, v2) :: ys => k = k2 && Json.beq v v2 && Json.beqFields xs ys
  | _, _ => false

end

mutual

theorem Json.beq_iff : ∀ a b : Json, Json.beq a b = true ↔ a = b
  | .null, b => by cases b <;> simp [Json.beq]
  | .bool a, b => by cases b <;> simp [Json.beq]
  | .num a, b => by cases b <;> simp [Json.beq]
  | .str a, b => by cases b <;> simp [Json.beq]
  | .arr a, b => by
      cases b <;> simp [Json.beq]
      exact Json.beqList_iff a _
  | .obj a, b => by
      cases b <;> simp [Json.beq]
      exact Json.beqFields_iff a _

theorem Json.beqList_iff : ∀ a b : List Json, Json.beqList a b = true ↔ a = b
  | [], b => by cases b <;> simp [Json.beqList]
  | x :: xs, b => by
      cases b with
      | nil => simp [Json.beqList]
      | cons y ys =>
        simp [Json.beqList, Json.beq_iff x y, Json.beqList_iff xs ys]

theorem Json.beqFields_iff : ∀ a b : List (String × Json), Json.beqFields a b = true ↔ a = b
  | [], b => by cases b <;> simp [Json.beqFields]
  | (k, v) :: xs, b => by
      cases b with
      | nil => simp [Json.beqFields]
      | cons y ys =>
        obtain ⟨k2, v2⟩ := y
        simp [Json.beqFields, Json.beq_iff v v2, Json.beqFields_iff xs ys, and_assoc]

end

instance : DecidableEq Json := fun a b => decidable_of_iff _ (Json.beq_iff a b)

/-- A document is a JSON object (`Document` in `src/types.ts` is an open
string-keyed mapping); we use the underlying field list. -/
abbrev Document := List (String × Json)

/-! ### Characters and whitespace -/

/-- The JSON whitespace characters accepted by `JSON.parse` (ECMA-404). -/
def jsonWs (c : Char) : Bool :=
  c = ' ' || c = '\t' || c = '\n' || c = '\r'

/-- Whitespace as trimmed by JavaScript `String.prototype.trim` (restricted
to the ASCII whitespace characters; the repository never relies on Unicode
space classes). -/
def jsWs (c : Char) : Bool :=
  c = ' ' || c = '\t' || c = '\n' || c = '\r' || c = '\x0b' || c = '\x0c'

def isDigitC (c : Char) : Bool := '0' ≤ c && c ≤ '9'

def digitVal (c : Char) : Nat := c.toNat - '0'.toNat

def isHexC (c : Char) : Bool :=
  isDigitC c || ('a' ≤ c && c ≤ 'f') || ('A' ≤ c && c ≤ 'F')

def hexVal (c : Char) : Nat :=
  if isDigitC c then digitVal c
  else if 'a' ≤ c && c ≤ 'f' then c.toNat - 'a'.toNat + 10
  else c.toNat - 'A'.toNat + 10

/-- Skip JSON whitespace (the parser side of the grammar). -/
def skipWs : List Char → List Char
  | [] => []
  | c :: cs => if jsonWs c then skipWs cs else c :: cs

/-! ### Decimal printing of numbers (`Number::toString` on integers) -/

def digitChar10 (d : Nat) : Char := Char.ofNat (48 + d)

/-- Decimal digits of a natural number, most significant first. -/
def natChars (n : Nat) : List Char :=
  if _h : n < 10 then [digitChar10 n]
  else natChars (n / 10) ++ [digitChar10 (n % 10)]
  decreasing_by exact Nat.div_lt_self (by omega) (by omega)

/-- Decimal printing of an integer, as `JSON.stringify` emits an integral
JavaScript number. -/
def intChars (n : Int) : List Char :=
  if n < 0 then '-' :: natChars n.natAbs else natChars n.natAbs

/-! ### String escaping (`QuoteJSONString`) -/

def hexDigitChar (d : Nat) : Char :=
  if d < 10 then digitChar10 d else Char.ofNat (97 + (d - 10))

/-- Escape one character the way `JSON.stringify` does. -/
def escChar (c : Char) : List Char :=
  if c = '"' then ['\\', '"']
  else if c = '\\' then ['\\', '\\']
  else if c = '\x08' then ['\\', 'b']
  else if c = '\t' then ['\\', 't']
  else if c = '\n' then ['\\', 'n']
  else if c = '\x0c' then ['\\', 'f']
  else if c = '\r' then ['\\', 'r']
  else if c.toNat < 32 then
    ['\\', 'u', '0', '0', hexDigitChar (c.toNat / 16), hexDigitChar (c.toNat % 16)]
  else [c]

def escapeChars : List Char → List Char
  | [] => []
  | c :: cs => escChar c ++ escapeChars cs

/-- A double-quoted JSON string literal for `s`. -/
def quoteChars (s : List Char) : List Char :=
  '"' :: escapeChars s ++ ['"']

/-! ### `JSON.stringify`

`gap` is the indentation unit (`""` when `JSON.stringify` is called without
an indent argument, two spaces for `JSON.stringify(v, null, 2)`), `ind` the
current indentation, both lists of whitespace characters. -/

/-- Newline plus indentation, emitted only in pretty mode. -/
def nlInd (gap ind : List Char) : List Char :=
  if gap = [] then [] else '\n' :: ind

/-- The space after `:` in a member, emitted only in pretty mode. -/
def colonSp (gap : List Char) : List Char :=
  if gap = [] then [] else [' ']

mutual

def emitVal (gap ind : List Char) : Json → List Char
  | .null => ['n', 'u', 'l', 'l']
  | .bool b => if b then ['t', 'r', 'u', 'e'] else ['f', 'a', 'l', 's', 'e']
  | .num n => intChars n
  | .str s => quoteChars s.data
  | .arr [] => ['[', ']']
  | .arr (x :: xs) =>
      '[' :: (nlInd gap (ind ++ gap) ++ emitVal gap (ind ++ gap) x ++
        emitArrTail gap (ind ++ gap) xs ++ nlInd gap ind ++ [']'])
  | .obj [] => ['{', '}']
  | .obj (f :: fs) =>
      '{' :: (nlInd gap (ind ++ gap) ++ emitMember gap (ind ++ gap) f ++
        emitObjTail gap (ind ++ gap) fs ++ nlInd gap ind ++ ['}'])

def emitMember (gap ind : List Char) : String × Json → List Char
  | (k, v) => quoteChars k.data ++ ':' :: colonSp gap ++ emitVal gap ind v

def emitArrTail (gap ind : List Char) : List Json → List Char
  | [] => []
  | x :: xs => ',' :: (nlInd gap ind ++ emitVal gap ind x ++ emitArrTail gap ind xs)

def emitObjTail (gap ind : List Char) : List (String × Json) → List Char
  | [] => []
  | f :: fs => ',' :: (nlInd gap ind ++ emitMember gap ind f ++ emitObjTail gap ind fs)

end

/-- `JSON.stringify(v, null, indent)` with a numeric indent (clamped to 10
by the runtime); `indent = 0` is plain `JSON.stringify(v)`. -/
def jsonStringify (indent : Nat) (v : Json) : String :=
  String.mk (emitVal (List.replicate (min indent 10) ' ') [] v)

/-! ### `JSON.parse` -/

/-- Consume a run of decimal digits, accumulating their value. -/
def parseDigitsAcc : Nat → List Char → Nat × List Char
  | acc, [] => (acc, [])
  | acc, c :: cs =>
      if isDigitC c then parseDigitsAcc (acc * 10 + digitVal c) cs else (acc, c :: cs)

/-- Consume at least one decimal digit. -/
def parseDigitsOne : List Char → Option (Nat × List Char)
  | [] => none
  | c :: cs => if isDigitC c then some (parseDigitsAcc (digitVal c) cs) else none

/-- Parse the body of a string literal after the opening quote, returning the
unescaped characters and the input after the closing quote.  Mirrors the JSON
string grammar: raw characters must not be control characters, escapes are
the JSON two-character escapes and `\uXXXX`. -/
def parseStrBody : List Char → Option (List Char × List Char)
  | [] => none
  | c :: cs =>
    if c = '"' then some ([], cs)
    else if c = '\\' then
      match cs with
      | [] => none
      | e :: cs2 =>
        if e = 'u' then
          match cs2 with
          | h1 :: h2 :: h3 :: h4 :: cs3 =>
            if isHexC h1 && isHexC h2 && isHexC h3 && isHexC h4 then
              match parseStrBody cs3 with
              | some (s, r) =>
                  some (Char.ofNat
                    (((hexVal h1 * 16 + hexVal h2) * 16 + hexVal h3) * 16 + hexVal h4) :: s, r)
              | none => none
            else none
          | _ => none
        else
          match (if e = '"' then some '"'
                 else if e = '\\' then some '\\'
                 else if e = '/' then some '/'
                 else if e = 'b' then some '\x08'
                 else if e = 'f' then some '\x0c'
                 else if e = 'n' then some '\n'
                 else if e = 'r' then some '\r'
                 else if e = 't' then some '\t'
                 else none) with
          | some d =>
            match parseStrBody cs2 with
            | some (s, r) => some (d :: s, r)
            | none => none
          | none => none
    else if c.toNat < 32 then none
    else
      match parseStrBody cs with
      | some (s, r) => some (c :: s, r)
      | none => none

mutual

/-- Parse one JSON value (after skipping leading whitespace).  Fuel-indexed
to make the nested recursion structural; `jsonParse` supplies ample fuel. -/
def parseVal : Nat → List Char → Option (Json × List Char)
  | 0, _ => none
  | fuel + 1, cs =>
    match skipWs cs with
    | 'n' :: 'u' :: 'l' :: 'l' :: rest => some (.null, rest)
    | 't' :: 'r' :: 'u' :: 'e' :: rest => some (.bool true, rest)
    | 'f' :: 'a' :: 'l' :: 's' :: 'e' :: rest => some (.bool false, rest)
    | '"' :: rest =>
      match parseStrBody rest with
      | some (s, r) => some (.str (String.mk s), r)
      | none => none
    | '[' :: rest => parseArrBody fuel rest
    | '{' :: rest => parseObjBody fuel rest
    | '-' :: rest =>
      match parseDigitsOne rest with
      | some (n, r) => some (.num (-(n : Int)), r)
      | none => none
    | c :: rest =>
      if isDigitC c then
        match parseDigitsOne (c :: rest) with
        | some (n, r) => some (.num (n : Int), r)
        | none => none
      else none
    | [] => none

/-- Parse an array body after the opening bracket. -/
def parseArrBody : Nat → List Char → Option (Json × List Char)
  | 0, _ => none
  | fuel + 1, cs =>
    match skipWs cs with
    | ']' :: rest => some (.arr [], rest)
    | other =>
      match parseVal fuel other with
      | some (v, r) =>
        match parseArrTail fuel r with
        | some (vs, r2) => some (.arr (v :: vs), r2)
        | none => none
      | none => none

/-- Parse `, value`* `]` after an array element. -/
def parseArrTail : Nat → List Char → Option (List Json × List Char)
  | 0, _ => none
  | fuel + 1, cs =>
    match skipWs cs with
    | ']' :: rest => some ([], rest)
    | ',' :: rest =>
      match parseVal fuel rest with
      | some (v, r) =>
        match parseArrTail fuel r with
        | some (vs, r2) => some (v :: vs, r2)
        | none => none
      | none => none
    | _ => none

/-- Parse an object body after the opening brace. -/
def parseObjBody : Nat → List Char → Option (Json × List Char)
  | 0, _ => none
  | fuel + 1, cs =>
    match skipWs cs with
    | '}' :: rest => some (.obj [], rest)
    | '"' :: rest =>
      match parseStrBody rest with
      | some (k, r) =>
        match skipWs r with
        | ':' :: r2 =>
          match parseVal fuel r2 with
          | some (v, r3) =>
            match parseObjTail fuel r3 with
            | some (fs, r4) => some (.obj ((String.mk k, v) :: fs), r4)
            | none => none
          | none => none
        | _ => none
      | none => none
    | _ => none

/-- Parse `, "key": value`* `}` after an object member. -/
def parseObjTail : Nat → List Char → Option (List (String × Json) × List Char)
  | 0, _ => none
  | fuel + 1, cs =>
    match skipWs cs with
    | '}' :: rest => some ([], rest)
    | ',' :: rest =>
      match skipWs rest with
      | '"' :: r =>
        match parseStrBody r with
        | some (k, r2) =>
          match skipWs r2 with
          | ':' :: r3 =>
            match parseVal fuel r3 with
            | some (v, r4) =>
              match parseObjTail fuel r4 with
              | some (fs, r5) => some ((String.mk k, v) :: fs, r5)
              | none => none
            | none => none
          | _ => none
        | none => none
      | _ => none
    | _ => none

end

/-- `JSON.parse`: parse a complete JSON text (a single value surrounded by
optional whitespace). -/
def jsonParse (content : String) : Option Json :=
  match parseVal (3 * content.data.length + 3) content.data with
  | some (v, rest) => if skipWs rest = [] then some v else none
  | none => none

/-! ### Round-trip of the JSON printer and parser -/

mutual

/-- Fuel bound needed by `parseVal` to read an emitted value back. -/
def sizeJ : Json → Nat
  | .null => 1
  | .bool _ => 1
  | .num _ => 1
  | .str _ => 1
  | .arr [] => 3
  | .arr (x :: xs) => 3 + sizeJ x + sizeL xs
  | .obj [] => 3
  | .obj (f :: fs) => 3 + sizeJ f.2 + sizeF fs

def sizeL : List Json → Nat
  | [] => 1
  | x :: xs => 1 + sizeJ x + sizeL xs

def sizeF : List (String × Json) → Nat
  | [] => 1
  | f :: fs => 1 + sizeJ f.2 + sizeF fs

end

def wsOnly (l : List Char) : Prop := ∀ c ∈ l, jsonWs c = true

/-- The first character of `l`, if any, is not a decimal digit (needed after
a number so that the maximal-munch digit scan stops). -/
def digitFree : List Char → Prop
  | [] => True
  | c :: _ => isDigitC c = false

theorem wsOnly_nil : wsOnly [] := by intro c hc; cases hc

theorem wsOnly_append {a b : List Char} (ha : wsOnly a) (hb : wsOnly b) :
    wsOnly (a ++ b) := by
  intro c hc
  rcases List.mem_append.mp hc with h | h
  · exact ha c h
  · exact hb c h

theorem skipWs_ws_append {l : List Char} (h : wsOnly l) (r : List Char) :
    skipWs (l ++ r) = skipWs r := by
  induction l with
  | nil => rfl
  | cons c cs ih =>
    have hc : jsonWs c = true := h c (List.mem_cons_self c cs)
    simp only [List.cons_append, skipWs, hc, if_true]
    exact ih fun d hd => h d (List.mem_cons_of_mem c hd)

theorem skipWs_cons_not_ws {c : Char} (h : jsonWs c = false) (r : List Char) :
    skipWs (c :: r) = c :: r := by
  simp [skipWs, h]

theorem wsOnly_nlInd {gap ind : List Char} (hi : wsOnly ind) :
    wsOnly (nlInd gap ind) := by
  unfold nlInd
  split
  · exact wsOnly_nil
  · intro c hc
    rcases List.mem_cons.mp hc with h | h
    · subst h; rfl
    · exact hi c h

theorem wsOnly_colonSp (gap : List Char) : wsOnly (colonSp gap) := by
  unfold colonSp
  split
  · exact wsOnly_nil
  · intro c hc
    rcases List.mem_cons.mp hc with h | h
    · subst h; rfl
    · cases h

/-! Digit printing round trip. -/

theorem digitChar10_spec {n : Nat} (h : n < 10) :
    isDigitC (digitChar10 n) = true ∧ digitVal (digitChar10 n) = n ∧
      jsonWs (digitChar10 n) = false := by
  interval_cases n <;> exact ⟨by decide, by decide, by decide⟩

theorem natChars_ne_nil (n : Nat) : natChars n ≠ [] := by
  unfold natChars
  split
  · simp
  · simp

theorem natChars_all_digits (n : Nat) : ∀ c ∈ natChars n, isDigitC c = true := by
  induction n using Nat.strong_induction_on with
  | _ n ih =>
    unfold natChars
    split
    · intro c hc
      rcases List.mem_singleton.mp hc with h
      subst h
      exact (digitChar10_spec (by omega)).1
    · intro c hc
      rcases List.mem_append.mp hc with h | h
      · exact ih (n / 10) (Nat.div_lt_self (by omega) (by omega)) c h
      · rcases List.mem_singleton.mp h with h2
        subst h2
        exact (digitChar10_spec (Nat.mod_lt n (by omega))).1

/-- Reading digit characters back with the parser's accumulator. -/
def foldDigits (acc : Nat) (ds : List Char) : Nat :=
  ds.foldl (fun a c => a * 10 + digitVal c) acc

theorem foldDigits_append (acc : Nat) (a b : List Char) :
    foldDigits acc (a ++ b) = foldDigits (foldDigits acc a) b := by
  simp [foldDigits]

theorem foldDigits_natChars (n : Nat) :
    ∀ acc, foldDigits acc (natChars n) = acc * 10 ^ (natChars n).length + n := by
  induction n using Nat.strong_induction_on with
  | _ n ih =>
    intro acc
    unfold natChars
    split
    · next h =>
      simp [foldDigits, (digitChar10_spec h).2.1]
    · next h =>
      rw [foldDigits_append, ih (n / 10) (Nat.div_lt_self (by omega) (by omega))]
      simp only [foldDigits, List.foldl_cons, List.foldl_nil,
        (digitChar10_spec (Nat.mod_lt n (by omega))).2.1]
      rw [List.length_append]
      simp only [List.length_singleton]
      rw [pow_succ]
      have hdm := Nat.div_add_mod n 10
      ring_nf
      omega

theorem parseDigitsAcc_digits {ds : List Char} (h : ∀ c ∈ ds, isDigitC c = true)
    (acc : Nat) (rest : List Char) :
    parseDigitsAcc acc (ds ++ rest) = parseDigitsAcc (foldDigits acc ds) rest := by
  induction ds generalizing acc with
  | nil => simp [foldDigits]
  | cons c cs ih =>
    have hc : isDigitC c = true := h c (List.mem_cons_self c cs)
    simp only [List.cons_append, parseDigitsAcc, hc, if_true]
    rw [show cs.append rest = cs ++ rest from rfl,
      ih (fun d hd => h d (List.mem_cons_of_mem c hd))]
    simp [foldDigits]

theorem parseDigitsAcc_stop {rest : List Char} (h : digitFree rest) (acc : Nat) :
    parseDigitsAcc acc rest = (acc, rest) := by
  cases rest with
  | nil => rfl
  | cons c cs =>
    simp only [digitFree] at h
    simp [parseDigitsAcc, h]

theorem parseDigitsOne_natChars (n : Nat) {rest : List Char} (h : digitFree rest) :
    parseDigitsOne (natChars n ++ rest) = some (n, rest) := by
  rcases hsplit : natChars n with _ | ⟨c, cs⟩
  · exact absurd hsplit (natChars_ne_nil n)
  · have hall := natChars_all_digits n
    rw [hsplit] at hall
    have hc : isDigitC c = true := hall c (List.mem_cons_self c cs)
    simp only [List.cons_append, parseDigitsOne, hc, if_true]
    have hcs : ∀ d ∈ cs, isDigitC d = true := fun d hd => hall d (List.mem_cons_of_mem c hd)
    rw [parseDigitsAcc_digits hcs, parseDigitsAcc_stop h]
    have hfold : foldDigits (digitVal c) cs = n := by
      have h0 : foldDigits 0 (c :: cs) = n := by
        rw [← hsplit, foldDigits_natChars n 0]
        simp
      simpa [foldDigits] using h0
    rw [hfold]

theorem isDigitC_ne {c : Char} (hc : isDigitC c = true) (d : Char)
    (hd : isDigitC d = false) : c ≠ d := by
  intro h
  subst h
  rw [hc] at hd
  cases hd

theorem isDigitC_not_ws {c : Char} (hc : isDigitC c = true) : jsonWs c = false := by
  have h1 := isDigitC_ne hc ' ' (by decide)
  have h2 := isDigitC_ne hc '\t' (by decide)
  have h3 := isDigitC_ne hc '\n' (by decide)
  have h4 := isDigitC_ne hc '\r' (by decide)
  simp [jsonWs, h1, h2, h3, h4]

theorem hexDigitChar_spec {d : Nat} (h : d < 16) :
    isHexC (hexDigitChar d) = true ∧ hexVal (hexDigitChar d) = d := by
  interval_cases d <;> exact ⟨by decide, by decide⟩

theorem parseStrBody_quote (X : List Char) : parseStrBody ('"' :: X) = some ([], X) := by
  rw [parseStrBody.eq_def]
  simp

theorem parseStrBody_escQ (X : List Char) : parseStrBody ('\\' :: '"' :: X) =
    (match parseStrBody X with | some (s, r) => some ('"' :: s, r) | none => none) := by
  rw [parseStrBody.eq_def]
  simp

theorem parseStrBody_escB (X : List Char) : parseStrBody ('\\' :: '\\' :: X) =
    (match parseStrBody X with | some (s, r) => some ('\\' :: s, r) | none => none) := by
  rw [parseStrBody.eq_def]
  simp

theorem parseStrBody_escb (X : List Char) : parseStrBody ('\\' :: 'b' :: X) =
    (match parseStrBody X with | some (s, r) => some ('\x08' :: s, r) | none => none) := by
  rw [parseStrBody.eq_def]
  simp

theorem parseStrBody_esct (X : List Char) : parseStrBody ('\\' :: 't' :: X) =
    (match parseStrBody X with | some (s, r) => some ('\t' :: s, r) | none => none) := by
  rw [parseStrBody.eq_def]
  simp

theorem parseStrBody_escn (X : List Char) : parseStrBody ('\\' :: 'n' :: X) =
    (match parseStrBody X with | some (s, r) => some ('\n' :: s, r) | none => none) := by
  rw [parseStrBody.eq_def]
  simp

theorem parseStrBody_escf (X : List Char) : parseStrBody ('\\' :: 'f' :: X) =
    (match parseStrBody X with | some (s, r) => some ('\x0c' :: s, r) | none => none) := by
  rw [parseStrBody.eq_def]
  simp

theorem parseStrBody_escr (X : List Char) : parseStrBody ('\\' :: 'r' :: X) =
    (match parseStrBody X with | some (s, r) => some ('\r' :: s, r) | none => none) := by
  rw [parseStrBody.eq_def]
  simp

theorem parseStrBody_escU (h1 h2 h3 h4 : Char) (X : List Char)
    (hh : (isHexC h1 && isHexC h2 && isHexC h3 && isHexC h4) = true) :
    parseStrBody ('\\' :: 'u' :: h1 :: h2 :: h3 :: h4 :: X) =
    (match parseStrBody X with
     | some (s, r) => some (Char.ofNat
         (((hexVal h1 * 16 + hexVal h2) * 16 + hexVal h3) * 16 + hexVal h4) :: s, r)
     | none => none) := by
  rw [parseStrBody.eq_def]
  simp [hh]

theorem parseStrBody_raw (c : Char) (X : List Char) (hq : c ≠ '"') (hb : c ≠ '\\')
    (hc : ¬c.toNat < 32) : parseStrBody (c :: X) =
    (match parseStrBody X with | some (s, r) => some (c :: s, r) | none => none) := by
  rw [parseStrBody.eq_def]
  simp [hq, hb, hc]

/-- Unescaping inverts escaping: the string-body parser reads an escaped
character sequence back, stopping at the closing quote. -/
theorem parseStrBody_escape (s : List Char) (rest : List Char) :
    parseStrBody (escapeChars s ++ '"' :: rest) = some (s, rest) := by
  induction s with
  | nil => exact parseStrBody_quote rest
  | cons c cs ih =>
    show parseStrBody (escChar c ++ escapeChars cs ++ '"' :: rest) = _
    by_cases g1 : c = '"'
    · subst g1
      rw [show escChar '"' = ['\\', '"'] from by decide]
      simp only [List.cons_append, List.nil_append]
      rw [parseStrBody_escQ, ih]
    · by_cases g2 : c = '\\'
      · subst g2
        rw [show escChar '\\' = ['\\', '\\'] from by decide]
        simp only [List.cons_append, List.nil_append]
        rw [parseStrBody_escB, ih]
      · by_cases g3 : c = '\x08'
        · subst g3
          rw [show escChar '\x08' = ['\\', 'b'] from by decide]
          simp only [List.cons_append, List.nil_append]
          rw [parseStrBody_escb, ih]
        · by_cases g4 : c = '\t'
          · subst g4
            rw [show escChar '\t' = ['\\', 't'] from by decide]
            simp only [List.cons_append, List.nil_append]
            rw [parseStrBody_esct, ih]
          · by_cases g5 : c = '\n'
            · subst g5
              rw [show escChar '\n' = ['\\', 'n'] from by decide]
              simp only [List.cons_append, List.nil_append]
              rw [parseStrBody_escn, ih]
            · by_cases g6 : c = '\x0c'
              · subst g6
                rw [show escChar '\x0c' = ['\\', 'f'] from by decide]
                simp only [List.cons_append, List.nil_append]
                rw [parseStrBody_escf, ih]
              · by_cases g7 : c = '\r'
                · subst g7
                  rw [show escChar '\r' = ['\\', 'r'] from by decide]
                  simp only [List.cons_append, List.nil_append]
                  rw [parseStrBody_escr, ih]
                · by_cases g8 : c.toNat < 32
                  · have hdiv : c.toNat / 16 < 16 := by omega
                    have hmod : c.toNat % 16 < 16 := Nat.mod_lt _ (by omega)
                    simp only [escChar, if_neg g1, if_neg g2, if_neg g3, if_neg g4,
                      if_neg g5, if_neg g6, if_neg g7, if_pos g8,
                      List.cons_append, List.nil_append]
                    rw [parseStrBody_escU _ _ _ _ _
                      (by rw [(hexDigitChar_spec hdiv).1, (hexDigitChar_spec hmod).1]; rfl)]
                    rw [ih, (hexDigitChar_spec hdiv).2, (hexDigitChar_spec hmod).2]
                    have hval : ((hexVal '0' * 16 + hexVal '0') * 16 + c.toNat / 16) * 16 +
                        c.toNat % 16 = c.toNat := by
                      have := Nat.div_add_mod c.toNat 16
                      simp only [(by decide : hexVal '0' = 0)]
                      omega
                    rw [hval, Char.ofNat_toNat]
                  · simp only [escChar, if_neg g1, if_neg g2, if_neg g3, if_neg g4,
                      if_neg g5, if_neg g6, if_neg g7, if_neg g8,
                      List.cons_append, List.nil_append]
                    rw [parseStrBody_raw c _ g1 g2 g8, ih]

theorem parseVal_stepNull (f : Nat) (rest : List Char) :
    parseVal (f + 1) ('n' :: 'u' :: 'l' :: 'l' :: rest) = some (.null, rest) := rfl

theorem parseVal_stepTrue (f : Nat) (rest : List Char) :
    parseVal (f + 1) ('t' :: 'r' :: 'u' :: 'e' :: rest) = some (.bool true, rest) := rfl

theorem parseVal_stepFalse (f : Nat) (rest : List Char) :
    parseVal (f + 1) ('f' :: 'a' :: 'l' :: 's' :: 'e' :: rest) = some (.bool false, rest) := rfl

theorem parseVal_stepStr (f : Nat) (Y : List Char) : parseVal (f + 1) ('"' :: Y) =
    (match parseStrBody Y with
     | some (s, r) => some (.str (String.mk s), r)
     | none => none) := rfl

theorem parseVal_stepDash (f : Nat) (Y : List Char) : parseVal (f + 1) ('-' :: Y) =
    (match parseDigitsOne Y with
     | some (n, r) => some (.num (-(n : Int)), r)
     | none => none) := rfl

theorem parseVal_stepArr (f : Nat) (Y : List Char) :
    parseVal (f + 1) ('[' :: Y) = parseArrBody f Y := rfl

theorem parseVal_stepObj (f : Nat) (Y : List Char) :
    parseVal (f + 1) ('{' :: Y) = parseObjBody f Y := rfl

theorem parseVal_digit (f : Nat) {c : Char} (hc : isDigitC c = true) (t : List Char) :
    parseVal (f + 1) (c :: t) = (match parseDigitsOne (c :: t) with
      | some (n, r) => some (.num (n : Int), r) | none => none) := by
  have hws := isDigitC_not_ws hc
  simp only [parseVal]
  rw [skipWs_cons_not_ws hws]
  split
  case _ heq => injection heq with h1 h2; rw [h1] at hc; exact absurd hc (by decide)
  case _ heq => injection heq with h1 h2; rw [h1] at hc; exact absurd hc (by decide)
  case _ heq => injection heq with h1 h2; rw [h1] at hc; exact absurd hc (by decide)
  case _ heq => injection heq with h1 h2; rw [h1] at hc; exact absurd hc (by decide)
  case _ heq => injection heq with h1 h2; rw [h1] at hc; exact absurd hc (by decide)
  case _ heq => injection heq with h1 h2; rw [h1] at hc; exact absurd hc (by decide)
  case _ heq => injection heq with h1 h2; rw [h1] at hc; exact absurd hc (by decide)
  case _ heq =>
    injection heq with h1 h2
    subst h1; subst h2
    simp [hc]
  case _ heq => exact absurd heq (by simp)

theorem parseArrBody_eq_of (f : Nat) {cs : List Char} {c : Char} {t : List Char}
    (h : skipWs cs = c :: t) (hne : c ≠ ']') :
    parseArrBody (f + 1) cs = (match parseVal f (c :: t) with
      | some (v, r) =>
        (match parseArrTail f r with
         | some (vs, r2) => some (.arr (v :: vs), r2)
         | none => none)
      | none => none) := by
  simp only [parseArrBody]
  rw [h]
  split
  · rename_i heq
    injection heq with h1 h2
    exact absurd h1 hne
  · rfl

/-- Leading JSON whitespace does not change a `parseVal` result. -/
theorem parseVal_ws {pre : List Char} (h : wsOnly pre) (fuel : Nat) (l : List Char) :
    parseVal fuel (pre ++ l) = parseVal fuel l := by
  cases fuel with
  | zero => rfl
  | succ f =>
    simp only [parseVal]
    rw [skipWs_ws_append h]

theorem digitFree_cons {c : Char} (h : isDigitC c = false) (l : List Char) :
    digitFree (c :: l) := h

theorem digitFree_nlInd (gap ind : List Char) {l : List Char} (h : digitFree l) :
    digitFree (nlInd gap ind ++ l) := by
  unfold nlInd
  split
  · simpa using h
  · simp only [List.cons_append]
    exact digitFree_cons (by decide) _

theorem digitFree_emitArrTail (gap ind : List Char) (xs : List Json) {l : List Char}
    (h : digitFree l) : digitFree (emitArrTail gap ind xs ++ l) := by
  cases xs with
  | nil => simpa [emitArrTail] using h
  | cons x xs =>
    simp only [emitArrTail, List.cons_append]
    exact digitFree_cons (by decide) _

theorem digitFree_emitObjTail (gap ind : List Char) (fs : List (String × Json))
    {l : List Char} (h : digitFree l) : digitFree (emitObjTail gap ind fs ++ l) := by
  cases fs with
  | nil => simpa [emitObjTail] using h
  | cons f fs =>
    simp only [emitObjTail, List.cons_append]
    exact digitFree_cons (by decide) _

theorem isDigitC_not_jsWs {c : Char} (hc : isDigitC c = true) : jsWs c = false := by
  have h1 := isDigitC_ne hc ' ' (by decide)
  have h2 := isDigitC_ne hc '\t' (by decide)
  have h3 := isDigitC_ne hc '\n' (by decide)
  have h4 := isDigitC_ne hc '\r' (by decide)
  have h5 := isDigitC_ne hc '\x0b' (by decide)
  have h6 := isDigitC_ne hc '\x0c' (by decide)
  simp [jsWs, h1, h2, h3, h4, h5, h6]

/-- Every printed value starts with a character that is not whitespace (in
either the JSON-grammar or the JavaScript-trim sense) and not a closing
bracket, so the parser entry dispatch sees it directly and a printed line
is never blank. -/
theorem emitVal_head (gap ind : List Char) (v : Json) :
    ∃ c t, emitVal gap ind v = c :: t ∧ jsonWs c = false ∧ c ≠ ']' ∧ c ≠ '}' ∧
      jsWs c = false := by
  cases v with
  | null =>
    exact ⟨'n', ['u', 'l', 'l'], by simp [emitVal], by decide, by decide, by decide,
      by decide⟩
  | bool b =>
    cases b with
    | true =>
      exact ⟨'t', ['r', 'u', 'e'], by simp [emitVal], by decide, by decide, by decide,
        by decide⟩
    | false =>
      exact ⟨'f', ['a', 'l', 's', 'e'], by simp [emitVal], by decide, by decide, by decide,
        by decide⟩
  | num n =>
    by_cases hn : n < 0
    · exact ⟨'-', natChars n.natAbs, by simp [emitVal, intChars, hn], by decide, by decide,
        by decide, by decide⟩
    · rcases hc : natChars n.natAbs with _ | ⟨c, cs⟩
      · exact absurd hc (natChars_ne_nil _)
      · have hd : isDigitC c = true :=
          natChars_all_digits n.natAbs c (hc ▸ List.mem_cons_self c cs)
        exact ⟨c, cs, by simp [emitVal, intChars, hn, hc], isDigitC_not_ws hd,
          isDigitC_ne hd ']' (by decide), isDigitC_ne hd '}' (by decide),
          isDigitC_not_jsWs hd⟩
  | str s =>
    exact ⟨'"', escapeChars s.data ++ ['"'], by simp [emitVal, quoteChars], by decide,
      by decide, by decide, by decide⟩
  | arr es =>
    cases es with
    | nil => exact ⟨'[', [']'], by simp [emitVal], by decide, by decide, by decide, by decide⟩
    | cons x xs =>
      exact ⟨'[', nlInd gap (ind ++ gap) ++ emitVal gap (ind ++ gap) x ++
        emitArrTail gap (ind ++ gap) xs ++ nlInd gap ind ++ [']'],
        by simp [emitVal], by decide, by decide, by decide, by decide⟩
  | obj fs =>
    cases fs with
    | nil => exact ⟨'{', ['}'], by simp [emitVal], by decide, by decide, by decide, by decide⟩
    | cons f fs =>
      exact ⟨'{', nlInd gap (ind ++ gap) ++ emitMember gap (ind ++ gap) f ++
        emitObjTail gap (ind ++ gap) fs ++ nlInd gap ind ++ ['}'],
        by simp [emitVal], by decide, by decide, by decide, by decide⟩


theorem parseArrTail_stepComma (f : Nat) (Y : List Char) :
    parseArrTail (f + 1) (',' :: Y) = (match parseVal f Y with
      | some (v, r) =>
        (match parseArrTail f r with
         | some (vs, r2) => some (v :: vs, r2)
         | none => none)
      | none => none) := rfl

theorem parseObjTail_stepComma (f : Nat) (Y : List Char) :
    parseObjTail (f + 1) (',' :: Y) = (match skipWs Y with
      | '"' :: r =>
        (match parseStrBody r with
         | some (k, r2) =>
           (match skipWs r2 with
            | ':' :: r3 =>
              (match parseVal f r3 with
               | some (v, r4) =>
                 (match parseObjTail f r4 with
                  | some (fs, r5) => some ((String.mk k, v) :: fs, r5)
                  | none => none)
               | none => none)
            | _ => none)
         | none => none)
      | _ => none) := rfl

theorem one_le_sizeJ (v : Json) : 1 ≤ sizeJ v := by
  cases v with
  | arr es => cases es <;> simp [sizeJ] <;> omega
  | obj fs => cases fs <;> simp [sizeJ] <;> omega
  | _ => simp [sizeJ]

theorem one_le_sizeL (xs : List Json) : 1 ≤ sizeL xs := by
  cases xs <;> simp [sizeL] <;> omega

theorem one_le_sizeF (fs : List (String × Json)) : 1 ≤ sizeF fs := by
  cases fs <;> simp [sizeF] <;> omega

theorem emitRound (N : Nat) :
    (∀ v : Json, sizeJ v ≤ N → ∀ gap ind : List Char, wsOnly gap → wsOnly ind →
      ∀ fuel : Nat, sizeJ v ≤ fuel → ∀ rest : List Char, digitFree rest →
      parseVal fuel (emitVal gap ind v ++ rest) = some (v, rest)) ∧
    (∀ xs : List Json, sizeL xs ≤ N → ∀ gap ind ind2 : List Char,
      wsOnly gap → wsOnly ind → wsOnly ind2 →
      ∀ fuel : Nat, sizeL xs ≤ fuel → ∀ rest : List Char,
      parseArrTail fuel (emitArrTail gap ind2 xs ++ (nlInd gap ind ++ ']' :: rest)) =
        some (xs, rest)) ∧
    (∀ fs : List (String × Json), sizeF fs ≤ N → ∀ gap ind ind2 : List Char,
      wsOnly gap → wsOnly ind → wsOnly ind2 →
      ∀ fuel : Nat, sizeF fs ≤ fuel → ∀ rest : List Char,
      parseObjTail fuel (emitObjTail gap ind2 fs ++ (nlInd gap ind ++ '}' :: rest)) =
        some (fs, rest)) := by
  induction N using Nat.strong_induction_on with
  | _ N ih =>
    refine ⟨?_, ?_, ?_⟩
    · intro v hN gap ind hg hi fuel hfuel rest hrest
      cases v with
      | null =>
        obtain ⟨f, rfl⟩ : ∃ f, fuel = f + 1 := ⟨fuel - 1, by simp [sizeJ] at hfuel; omega⟩
        rw [show emitVal gap ind .null = ['n', 'u', 'l', 'l'] from by simp [emitVal]]
        exact parseVal_stepNull f rest
      | bool b =>
        obtain ⟨f, rfl⟩ : ∃ f, fuel = f + 1 := ⟨fuel - 1, by simp [sizeJ] at hfuel; omega⟩
        cases b with
        | true =>
          rw [show emitVal gap ind (.bool true) = ['t', 'r', 'u', 'e'] from by simp [emitVal]]
          exact parseVal_stepTrue f rest
        | false =>
          rw [show emitVal gap ind (.bool false) = ['f', 'a', 'l', 's', 'e'] from by
            simp [emitVal]]
          exact parseVal_stepFalse f rest
      | num n =>
        obtain ⟨f, rfl⟩ : ∃ f, fuel = f + 1 := ⟨fuel - 1, by simp [sizeJ] at hfuel; omega⟩
        rw [show emitVal gap ind (.num n) = intChars n from by simp [emitVal]]
        by_cases hn : n < 0
        · rw [show intChars n = '-' :: natChars n.natAbs from by simp [intChars, hn]]
          simp only [List.cons_append]
          rw [parseVal_stepDash, parseDigitsOne_natChars n.natAbs hrest]
          simp only [Option.some.injEq, Prod.mk.injEq, Json.num.injEq, and_true]
          omega
        · rw [show intChars n = natChars n.natAbs from by simp [intChars, hn]]
          rcases hc : natChars n.natAbs with _ | ⟨c, cs⟩
          · exact absurd hc (natChars_ne_nil _)
          · have hd : isDigitC c = true :=
              natChars_all_digits n.natAbs c (hc ▸ List.mem_cons_self c cs)
            simp only [List.cons_append]
            rw [parseVal_digit f hd]
            rw [show c :: (cs ++ rest) = natChars n.natAbs ++ rest from by
              rw [hc]; simp]
            rw [parseDigitsOne_natChars n.natAbs hrest]
            simp only [Option.some.injEq, Prod.mk.injEq, Json.num.injEq, and_true]
            omega
      | str s =>
        obtain ⟨f, rfl⟩ : ∃ f, fuel = f + 1 := ⟨fuel - 1, by simp [sizeJ] at hfuel; omega⟩
        rw [show emitVal gap ind (.str s) = '"' :: (escapeChars s.data ++ ['"']) from by
          simp [emitVal, quoteChars]]
        simp only [List.cons_append, List.append_assoc, List.singleton_append,
          List.nil_append]
        rw [parseVal_stepStr, parseStrBody_escape]
      | arr es =>
        cases es with
        | nil =>
          obtain ⟨f, rfl⟩ : ∃ f, fuel = f + 1 := ⟨fuel - 1, by simp [sizeJ] at hfuel; omega⟩
          have hf : 1 ≤ f := by simp [sizeJ] at hfuel; omega
          obtain ⟨f2, rfl⟩ : ∃ f2, f = f2 + 1 := ⟨f - 1, by omega⟩
          rw [show emitVal gap ind (.arr []) = ['[', ']'] from by simp [emitVal]]
          simp only [List.cons_append, List.singleton_append, List.nil_append]
          rw [parseVal_stepArr]
          rfl
        | cons x xs =>
          have hsz : sizeJ (.arr (x :: xs)) = 3 + sizeJ x + sizeL xs := by simp [sizeJ]
          obtain ⟨f, rfl⟩ : ∃ f, fuel = f + 1 := ⟨fuel - 1, by omega⟩
          obtain ⟨f2, rfl⟩ : ∃ f2, f = f2 + 1 := ⟨f - 1, by omega⟩
          have hi2 : wsOnly (ind ++ gap) := wsOnly_append hi hg
          rw [show emitVal gap ind (.arr (x :: xs)) =
            '[' :: (nlInd gap (ind ++ gap) ++ emitVal gap (ind ++ gap) x ++
              emitArrTail gap (ind ++ gap) xs ++ nlInd gap ind ++ [']']) from by
            simp [emitVal]]
          simp only [List.cons_append, List.append_assoc, List.singleton_append,
            List.nil_append]
          rw [parseVal_stepArr]
          obtain ⟨c, t, hE, hws, hnrb, -, -⟩ := emitVal_head gap (ind ++ gap) x
          have hskip : skipWs (nlInd gap (ind ++ gap) ++ (emitVal gap (ind ++ gap) x ++
              (emitArrTail gap (ind ++ gap) xs ++ (nlInd gap ind ++ ']' :: rest)))) =
              c :: (t ++ (emitArrTail gap (ind ++ gap) xs ++
                (nlInd gap ind ++ ']' :: rest))) := by
            rw [skipWs_ws_append (wsOnly_nlInd hi2), hE]
            simp only [List.cons_append]
            rw [skipWs_cons_not_ws hws]
          rw [parseArrBody_eq_of f2 hskip hnrb]
          have hx : parseVal f2 (c :: (t ++ (emitArrTail gap (ind ++ gap) xs ++
              (nlInd gap ind ++ ']' :: rest)))) =
              some (x, emitArrTail gap (ind ++ gap) xs ++ (nlInd gap ind ++ ']' :: rest)) := by
            rw [show c :: (t ++ (emitArrTail gap (ind ++ gap) xs ++
                (nlInd gap ind ++ ']' :: rest))) =
              emitVal gap (ind ++ gap) x ++ (emitArrTail gap (ind ++ gap) xs ++
                (nlInd gap ind ++ ']' :: rest)) from by rw [hE]; simp]
            exact (ih (sizeJ x).succ (by omega)).1 x (by omega) gap (ind ++ gap) hg hi2 f2
              (by omega) _
              (digitFree_emitArrTail _ _ _ (digitFree_nlInd _ _ (digitFree_cons (by decide) _)))
          have ht : parseArrTail f2 (emitArrTail gap (ind ++ gap) xs ++
              (nlInd gap ind ++ ']' :: rest)) = some (xs, rest) :=
            (ih (sizeL xs).succ (by omega)).2.1 xs (by omega) gap ind (ind ++ gap) hg hi hi2 f2
              (by omega) rest
          simp [hx, ht]
      | obj fs =>
        cases fs with
        | nil =>
          obtain ⟨f, rfl⟩ : ∃ f, fuel = f + 1 := ⟨fuel - 1, by simp [sizeJ] at hfuel; omega⟩
          have hf : 1 ≤ f := by simp [sizeJ] at hfuel; omega
          obtain ⟨f2, rfl⟩ : ∃ f2, f = f2 + 1 := ⟨f - 1, by omega⟩
          rw [show emitVal gap ind (.obj []) = ['{', '}'] from by simp [emitVal]]
          simp only [List.cons_append, List.singleton_append, List.nil_append]
          rw [parseVal_stepObj]
          rfl
        | cons fkv fs =>
          obtain ⟨k, v⟩ := fkv
          have hsz : sizeJ (.obj ((k, v) :: fs)) = 3 + sizeJ v + sizeF fs := by simp [sizeJ]
          obtain ⟨f, rfl⟩ : ∃ f, fuel = f + 1 := ⟨fuel - 1, by omega⟩
          obtain ⟨f2, rfl⟩ : ∃ f2, f = f2 + 1 := ⟨f - 1, by omega⟩
          have hi2 : wsOnly (ind ++ gap) := wsOnly_append hi hg
          rw [show emitVal gap ind (.obj ((k, v) :: fs)) =
            '{' :: (nlInd gap (ind ++ gap) ++ ('"' :: (escapeChars k.data ++ ['"'])) ++
              ':' :: colonSp gap ++ emitVal gap (ind ++ gap) v ++
              emitObjTail gap (ind ++ gap) fs ++ nlInd gap ind ++ ['}']) from by
            simp [emitVal, emitMember, quoteChars]]
          simp only [List.cons_append, List.append_assoc, List.singleton_append,
            List.nil_append]
          rw [parseVal_stepObj]
          simp only [parseObjBody]
          have hskip : skipWs (nlInd gap (ind ++ gap) ++ ('"' :: (escapeChars k.data ++
              '"' :: ':' :: (colonSp gap ++ (emitVal gap (ind ++ gap) v ++
              (emitObjTail gap (ind ++ gap) fs ++ (nlInd gap ind ++ '}' :: rest))))))) =
              '"' :: (escapeChars k.data ++ '"' :: ':' :: (colonSp gap ++
              (emitVal gap (ind ++ gap) v ++ (emitObjTail gap (ind ++ gap) fs ++
              (nlInd gap ind ++ '}' :: rest))))) := by
            rw [skipWs_ws_append (wsOnly_nlInd hi2), skipWs_cons_not_ws (by decide)]
          have e1 : parseStrBody (escapeChars k.data ++ '"' :: ':' :: (colonSp gap ++
              (emitVal gap (ind ++ gap) v ++ (emitObjTail gap (ind ++ gap) fs ++
              (nlInd gap ind ++ '}' :: rest))))) =
              some (k.data, ':' :: (colonSp gap ++ (emitVal gap (ind ++ gap) v ++
              (emitObjTail gap (ind ++ gap) fs ++ (nlInd gap ind ++ '}' :: rest))))) :=
            parseStrBody_escape _ _
          have e2 : skipWs (':' :: (colonSp gap ++ (emitVal gap (ind ++ gap) v ++
              (emitObjTail gap (ind ++ gap) fs ++ (nlInd gap ind ++ '}' :: rest))))) =
              ':' :: (colonSp gap ++ (emitVal gap (ind ++ gap) v ++
              (emitObjTail gap (ind ++ gap) fs ++ (nlInd gap ind ++ '}' :: rest)))) :=
            skipWs_cons_not_ws (by decide) _
          have e3 : parseVal f2 (colonSp gap ++ (emitVal gap (ind ++ gap) v ++
              (emitObjTail gap (ind ++ gap) fs ++ (nlInd gap ind ++ '}' :: rest)))) =
              some (v, emitObjTail gap (ind ++ gap) fs ++
                (nlInd gap ind ++ '}' :: rest)) := by
            rw [parseVal_ws (wsOnly_colonSp gap)]
            exact (ih (sizeJ v).succ (by omega)).1 v (by omega) gap (ind ++ gap) hg hi2 f2
              (by omega) _
              (digitFree_emitObjTail _ _ _ (digitFree_nlInd _ _ (digitFree_cons (by decide) _)))
          have e4 : parseObjTail f2 (emitObjTail gap (ind ++ gap) fs ++
              (nlInd gap ind ++ '}' :: rest)) = some (fs, rest) :=
            (ih (sizeF fs).succ (by omega)).2.2 fs (by omega) gap ind (ind ++ gap) hg hi hi2 f2
              (by omega) rest
          simp [hskip, e1, e2, e3, e4]
    · intro xs hN gap ind ind2 hg hi hi2 fuel hfuel rest
      cases xs with
      | nil =>
        obtain ⟨f, rfl⟩ : ∃ f, fuel = f + 1 := ⟨fuel - 1, by simp [sizeL] at hfuel; omega⟩
        simp only [emitArrTail, List.nil_append]
        simp only [parseArrTail]
        rw [skipWs_ws_append (wsOnly_nlInd hi), skipWs_cons_not_ws (by decide)]
        rfl
      | cons x xs =>
        have hsz : sizeL (x :: xs) = 1 + sizeJ x + sizeL xs := by simp [sizeL]
        have hp1 : 1 ≤ sizeJ x := one_le_sizeJ x
        have hp2 : 1 ≤ sizeL xs := one_le_sizeL xs
        obtain ⟨f, rfl⟩ : ∃ f, fuel = f + 1 := ⟨fuel - 1, by omega⟩
        simp only [emitArrTail, List.cons_append, List.append_assoc, List.nil_append]
        rw [parseArrTail_stepComma]
        have hx : parseVal f (nlInd gap ind2 ++ (emitVal gap ind2 x ++
            (emitArrTail gap ind2 xs ++ (nlInd gap ind ++ ']' :: rest)))) =
            some (x, emitArrTail gap ind2 xs ++ (nlInd gap ind ++ ']' :: rest)) := by
          rw [parseVal_ws (wsOnly_nlInd hi2)]
          exact (ih (sizeJ x).succ (by omega)).1 x (by omega) gap ind2 hg hi2 f
            (by omega) _
            (digitFree_emitArrTail _ _ _ (digitFree_nlInd _ _ (digitFree_cons (by decide) _)))
        have ht : parseArrTail f (emitArrTail gap ind2 xs ++
            (nlInd gap ind ++ ']' :: rest)) = some (xs, rest) :=
          (ih (sizeL xs).succ (by omega)).2.1 xs (by omega) gap ind ind2 hg hi hi2 f
            (by omega) rest
        simp [hx, ht]
    · intro fs hN gap ind ind2 hg hi hi2 fuel hfuel rest
      cases fs with
      | nil =>
        obtain ⟨f, rfl⟩ : ∃ f, fuel = f + 1 := ⟨fuel - 1, by simp [sizeF] at hfuel; omega⟩
        simp only [emitObjTail, List.nil_append]
        simp only [parseObjTail]
        rw [skipWs_ws_append (wsOnly_nlInd hi), skipWs_cons_not_ws (by decide)]
        rfl
      | cons fkv fs =>
        obtain ⟨k, v⟩ := fkv
        have hsz : sizeF ((k, v) :: fs) = 1 + sizeJ v + sizeF fs := by simp [sizeF]
        have hp1 : 1 ≤ sizeJ v := one_le_sizeJ v
        have hp2 : 1 ≤ sizeF fs := one_le_sizeF fs
        obtain ⟨f, rfl⟩ : ∃ f, fuel = f + 1 := ⟨fuel - 1, by omega⟩
        simp only [emitObjTail, emitMember, quoteChars, List.cons_append, List.append_assoc,
          List.singleton_append, List.nil_append]
        rw [parseObjTail_stepComma]
        have hskip : skipWs (nlInd gap ind2 ++ ('"' :: (escapeChars k.data ++
            '"' :: ':' :: (colonSp gap ++ (emitVal gap ind2 v ++
            (emitObjTail gap ind2 fs ++ (nlInd gap ind ++ '}' :: rest))))))) =
            '"' :: (escapeChars k.data ++ '"' :: ':' :: (colonSp gap ++
            (emitVal gap ind2 v ++ (emitObjTail gap ind2 fs ++
            (nlInd gap ind ++ '}' :: rest))))) := by
          rw [skipWs_ws_append (wsOnly_nlInd hi2), skipWs_cons_not_ws (by decide)]
        have e1 : parseStrBody (escapeChars k.data ++ '"' :: ':' :: (colonSp gap ++
            (emitVal gap ind2 v ++ (emitObjTail gap ind2 fs ++
            (nlInd gap ind ++ '}' :: rest))))) =
            some (k.data, ':' :: (colonSp gap ++ (emitVal gap ind2 v ++
            (emitObjTail gap ind2 fs ++ (nlInd gap ind ++ '}' :: rest))))) :=
          parseStrBody_escape _ _
        have e2 : skipWs (':' :: (colonSp gap ++ (emitVal gap ind2 v ++
            (emitObjTail gap ind2 fs ++ (nlInd gap ind ++ '}' :: rest))))) =
            ':' :: (colonSp gap ++ (emitVal gap ind2 v ++
            (emitObjTail gap ind2 fs ++ (nlInd gap ind ++ '}' :: rest)))) :=
          skipWs_cons_not_ws (by decide) _
        have e3 : parseVal f (colonSp gap ++ (emitVal gap ind2 v ++
            (emitObjTail gap ind2 fs ++ (nlInd gap ind ++ '}' :: rest)))) =
            some (v, emitObjTail gap ind2 fs ++ (nlInd gap ind ++ '}' :: rest)) := by
          rw [parseVal_ws (wsOnly_colonSp gap)]
          exact (ih (sizeJ v).succ (by omega)).1 v (by omega) gap ind2 hg hi2 f
            (by omega) _
            (digitFree_emitObjTail _ _ _ (digitFree_nlInd _ _ (digitFree_cons (by decide) _)))
        have e4 : parseObjTail f (emitObjTail gap ind2 fs ++
            (nlInd gap ind ++ '}' :: rest)) = some (fs, rest) :=
          (ih (sizeF fs).succ (by omega)).2.2 fs (by omega) gap ind ind2 hg hi hi2 f
            (by omega) rest
        simp [hskip, e1, e2, e3, e4]


theorem emitVal_length_pos (gap ind : List Char) (v : Json) :
    1 ≤ (emitVal gap ind v).length := by
  obtain ⟨c, t, hE, -, -, -, -⟩ := emitVal_head gap ind v
  simp [hE]

/-- Size bound: the fuel `3 * length + 3` supplied by `jsonParse` is enough
for any printed value. -/
theorem sizeJ_le_emit (N : Nat) :
    (∀ v : Json, sizeJ v ≤ N → ∀ gap ind : List Char,
      sizeJ v ≤ 3 * (emitVal gap ind v).length) ∧
    (∀ xs : List Json, sizeL xs ≤ N → ∀ gap ind : List Char,
      sizeL xs ≤ 3 * (emitArrTail gap ind xs).length + 3) ∧
    (∀ fs : List (String × Json), sizeF fs ≤ N → ∀ gap ind : List Char,
      sizeF fs ≤ 3 * (emitObjTail gap ind fs).length + 3) := by
  induction N using Nat.strong_induction_on with
  | _ N ih =>
    refine ⟨?_, ?_, ?_⟩
    · intro v hN gap ind
      cases v with
      | null => simp [sizeJ, emitVal]
      | bool b => cases b <;> simp [sizeJ, emitVal]
      | num n =>
        have := emitVal_length_pos gap ind (.num n)
        simp only [sizeJ]
        omega
      | str s =>
        have := emitVal_length_pos gap ind (.str s)
        simp only [sizeJ]
        omega
      | arr es =>
        cases es with
        | nil => simp [sizeJ, emitVal]
        | cons x xs =>
          have hsz : sizeJ (.arr (x :: xs)) = 3 + sizeJ x + sizeL xs := by simp [sizeJ]
          have h1 : sizeJ x ≤ 3 * (emitVal gap (ind ++ gap) x).length :=
            (ih (sizeJ x).succ (by have := one_le_sizeL xs; omega)).1 x (by omega) gap
              (ind ++ gap)
          have h2 : sizeL xs ≤ 3 * (emitArrTail gap (ind ++ gap) xs).length + 3 :=
            (ih (sizeL xs).succ (by have := one_le_sizeJ x; omega)).2.1 xs (by omega) gap
              (ind ++ gap)
          have hlen : (emitVal gap ind (.arr (x :: xs))).length =
              1 + (nlInd gap (ind ++ gap)).length + (emitVal gap (ind ++ gap) x).length +
              (emitArrTail gap (ind ++ gap) xs).length + (nlInd gap ind).length + 1 := by
            simp [emitVal]
            omega
          omega
      | obj fs =>
        cases fs with
        | nil => simp [sizeJ, emitVal]
        | cons fkv fs =>
          obtain ⟨k, v⟩ := fkv
          have hsz : sizeJ (.obj ((k, v) :: fs)) = 3 + sizeJ v + sizeF fs := by simp [sizeJ]
          have h1 : sizeJ v ≤ 3 * (emitVal gap (ind ++ gap) v).length :=
            (ih (sizeJ v).succ (by have := one_le_sizeF fs; omega)).1 v (by omega) gap
              (ind ++ gap)
          have h2 : sizeF fs ≤ 3 * (emitObjTail gap (ind ++ gap) fs).length + 3 :=
            (ih (sizeF fs).succ (by have := one_le_sizeJ v; omega)).2.2 fs (by omega) gap
              (ind ++ gap)
          have hlen : (emitVal gap ind (.obj ((k, v) :: fs))).length =
              1 + (nlInd gap (ind ++ gap)).length + ((escapeChars k.data).length + 2 +
                1 + (colonSp gap).length + (emitVal gap (ind ++ gap) v).length) +
              (emitObjTail gap (ind ++ gap) fs).length + (nlInd gap ind).length + 1 := by
            simp [emitVal, emitMember, quoteChars]
            omega
          omega
    · intro xs hN gap ind
      cases xs with
      | nil => simp [sizeL, emitArrTail]
      | cons x xs =>
        have hsz : sizeL (x :: xs) = 1 + sizeJ x + sizeL xs := by simp [sizeL]
        have h1 : sizeJ x ≤ 3 * (emitVal gap ind x).length :=
          (ih (sizeJ x).succ (by have := one_le_sizeL xs; omega)).1 x (by omega) gap ind
        have h2 : sizeL xs ≤ 3 * (emitArrTail gap ind xs).length + 3 :=
          (ih (sizeL xs).succ (by have := one_le_sizeJ x; omega)).2.1 xs (by omega) gap ind
        have hlen : (emitArrTail gap ind (x :: xs)).length =
            1 + (nlInd gap ind).length + (emitVal gap ind x).length +
            (emitArrTail gap ind xs).length := by
          simp [emitArrTail]
          omega
        omega
    · intro fs hN gap ind
      cases fs with
      | nil => simp [sizeF, emitObjTail]
      | cons fkv fs =>
        obtain ⟨k, v⟩ := fkv
        have hsz : sizeF ((k, v) :: fs) = 1 + sizeJ v + sizeF fs := by simp [sizeF]
        have h1 : sizeJ v ≤ 3 * (emitVal gap ind v).length :=
          (ih (sizeJ v).succ (by have := one_le_sizeF fs; omega)).1 v (by omega) gap ind
        have h2 : sizeF fs ≤ 3 * (emitObjTail gap ind fs).length + 3 :=
          (ih (sizeF fs).succ (by have := one_le_sizeJ v; omega)).2.2 fs (by omega) gap ind
        have hlen : (emitObjTail gap ind ((k, v) :: fs)).length =
            1 + (nlInd gap ind).length + ((escapeChars k.data).length + 2 + 1 +
              (colonSp gap).length + (emitVal gap ind v).length) +
            (emitObjTail gap ind fs).length := by
          simp [emitObjTail, emitMember, quoteChars]
          omega
        omega

theorem wsOnly_replicate_space (n : Nat) : wsOnly (List.replicate n ' ') := by
  intro c hc
  rw [List.eq_of_mem_replicate hc]
  rfl

/-- The JSON printer/parser round trip, at the level of the embedded
`JSON.parse` and `JSON.stringify`. -/
theorem jsonParse_jsonStringify (indent : Nat) (v : Json) :
    jsonParse (jsonStringify indent v) = some v := by
  unfold jsonParse jsonStringify
  have hdata : (String.mk (emitVal (List.replicate (min indent 10) ' ') [] v)).data =
      emitVal (List.replicate (min indent 10) ' ') [] v := rfl
  rw [hdata]
  have hround := (emitRound (sizeJ v)).1 v le_rfl (List.replicate (min indent 10) ' ') []
    (wsOnly_replicate_space _) wsOnly_nil
    (3 * (emitVal (List.replicate (min indent 10) ' ') [] v).length + 3)
    (by have := (sizeJ_le_emit (sizeJ v)).1 v le_rfl (List.replicate (min indent 10) ' ') [];
        omega)
    [] trivial
  rw [show emitVal (List.replicate (min indent 10) ' ') [] v ++ ([] : List Char) =
    emitVal (List.replicate (min indent 10) ' ') [] v from by simp] at hround
  rw [hround]
  simp [skipWs]

/-! ### JavaScript string helpers -/

/-- JavaScript single-character `String.prototype.split`. -/
def splitOnChar (sep : Char) : List Char → List (List Char)
  | [] => [[]]
  | c :: cs =>
    if c = sep then [] :: splitOnChar sep cs
    else
      match splitOnChar sep cs with
      | [] => [[c]]
      | l :: ls => (c :: l) :: ls

/-- `trim()` on a character list: whitespace removed from both ends. -/
def jsTrimChars (l : List Char) : List Char :=
  ((l.dropWhile (fun c => jsWs c)).reverse.dropWhile (fun c => jsWs c)).reverse

/-- `!content.trim()`: the string is empty or whitespace-only (the falsy
check performed before each parse). -/
def allWs (s : String) : Bool := s.data.all (fun c => jsWs c)

/-- A line survives `.filter(line => line.trim())` iff it has a
non-whitespace character. -/
def keptLine (l : List Char) : Bool := !(l.all (fun c => jsWs c))

/-! ### Formatters (`src/formatters`)

Each formatter is embedded with `parse` returning `Except` (a thrown
exception becomes `.error`).  The YAML strategy wraps the external `yaml`
npm package — an external collaborator whose grammar the repository does
not define — and is therefore not part of this embedding (see
`getFormatter`). -/

structure FormatOptions where
  indent : Option Nat
  timestampField : Option String

structure Formatter where
  parse : String → Except String (List Json)
  serialize : List Json → FormatOptions → String
  ext : String

/-! #### JSONLFormatter (`src/formatters/JSONLFormatter.ts`) -/

/-- The indexed `.map` over the kept lines: the first line that fails
`JSON.parse` throws, carrying its 1-based index among the kept lines. -/
def jsonlParseLines : Nat → List String → Except String (List Json)
  | _, [] => .ok []
  | i, l :: ls =>
    match jsonParse l with
    | some v =>
      match jsonlParseLines (i + 1) ls with
      | .ok vs => .ok (v :: vs)
      | .error e => .error e
    | none => .error ("Invalid JSONL at line " ++ toString (i + 1))

def jsonlParse (content : String) : Except String (List Json) :=
  if allWs content then .ok []
  else jsonlParseLines 0
    (((splitOnChar '\n' content.data).filter keptLine).map String.mk)

def jsonlSerialize (documents : List Json) : String :=
  String.mk (List.intercalate ['\n'] (documents.map (emitVal [] [])) ++
    (if documents.length > 0 then ['\n'] else []))

def jsonlFormatter : Formatter :=
  ⟨jsonlParse, fun docs _ => jsonlSerialize docs, "jsonl"⟩

/-! #### JSONFormatter (whole-document array-or-scalar) -/

def jsonFormatterParse (content : String) : Except String (List Json) :=
  if allWs content then .ok []
  else
    match jsonParse content with
    | some (.arr xs) => .ok xs
    | some v => .ok [v]
    | none => .error "Invalid JSON format"

def jsonFormatterSerialize (documents : List Json) (options : FormatOptions) : String :=
  let indent := options.indent.getD 2
  match documents with
  | [d] => jsonStringify indent d
  | _ => jsonStringify indent (.arr documents)

def jsonFormatter : Formatter :=
  ⟨jsonFormatterParse, jsonFormatterSerialize, "json"⟩

/-! #### CSVFormatter -/

/-- The character loop of `parseCSVLine`: quote characters only toggle the
in-quotes flag and are never appended to the current field. -/
def parseCSVLineChars : List Char → List Char → Bool → List (List Char)
  | [], cur, _ => [cur]
  | ch :: rest, cur, inQuotes =>
    if ch = '"' then parseCSVLineChars rest cur (!inQuotes)
    else if ch = ',' && !inQuotes then cur :: parseCSVLineChars rest [] inQuotes
    else parseCSVLineChars rest (cur ++ [ch]) inQuotes

/-- `parseCSVLine`, including the final `.map(field => field.trim())`. -/
def parseCSVLine (line : String) : List String :=
  (parseCSVLineChars line.data [] false).map (fun f => String.mk (jsTrimChars f))

mutual

/-- JavaScript `String(value)` for the values that occur in documents
(`doc[header]?.toString()`); `null` maps to the empty cell through the
optional-chaining / array-join paths. -/
def jsToString : Json → String
  | .null => ""
  | .bool true => "true"
  | .bool false => "false"
  | .num n => String.mk (intChars n)
  | .str s => s
  | .arr xs => String.intercalate "," (jsToStringList xs)
  | .obj _ => "[object Object]"

def jsToStringList : List Json → List String
  | [] => []
  | x :: xs => jsToString x :: jsToStringList xs

end

/-- The fields of a document (a JSON object). -/
def docFields : Json → Document
  | .obj fs => fs
  | _ => []

/-- JavaScript property read `doc[key]`. -/
def objGet (doc : Document) (key : String) : Option Json :=
  (doc.find? (fun p => p.1 = key)).map (fun p => p.2)

/-- JavaScript property write `doc[key] = v`: replaces in place when the
key exists, appends otherwise. -/
def objSet : Document → String → Json → Document
  | [], k, v => [(k, v)]
  | (k2, v2) :: rest, k, v =>
    if k2 = k then (k2, v) :: rest else (k2, v2) :: objSet rest k v

/-- `headers.forEach((header, i) => document[header] = values[i] || '')`. -/
def buildRow (headers values : List String) : Document :=
  go 0 headers []
where
  go : Nat → List String → Document → Document
  | _, [], doc => doc
  | i, h :: hs, doc => go (i + 1) hs (objSet doc h (.str (values.getD i "")))

def csvParse (content : String) : List Json :=
  if allWs content then []
  else
    match (splitOnChar '\n' content.data).filter keptLine with
    | [] => []
    | [_] => []
    | l0 :: rest =>
      let headers := parseCSVLine (String.mk l0)
      rest.map (fun line => .obj (buildRow headers (parseCSVLine (String.mk line))))

/-- `value.replace(/"/g, '""')`. -/
def doubleQuotes : List Char → List Char
  | [] => []
  | c :: cs => if c = '"' then '"' :: '"' :: doubleQuotes cs else c :: doubleQuotes cs

def escapeCSV (value : String) : String :=
  if value.data.contains ',' || value.data.contains '"' || value.data.contains '\n' then
    "\"" ++ String.mk (doubleQuotes value.data) ++ "\""
  else value

/-- The element loop of `Array.from(new Set(..))`: keep each key at its
first occurrence, tracking the keys already seen. -/
def dedupAux : List String → List String → List String
  | _, [] => []
  | seen, k :: ks =>
    if seen.contains k then dedupAux seen ks else k :: dedupAux (k :: seen) ks

/-- `Array.from(new Set(..))`: deduplicate keeping first occurrences. -/
def dedupKeys (l : List String) : List String := dedupAux [] l

/-- The cell text `doc[header]?.toString() || ''`. -/
def csvCell (doc : Json) (header : String) : String :=
  match objGet (docFields doc) header with
  | none => ""
  | some .null => ""
  | some v => jsToString v

def csvSerialize (documents : List Json) : String :=
  if documents.length = 0 then ""
  else
    let headers := dedupKeys ((documents.map (fun d => (docFields d).map (fun p => p.1))).flatten)
    let headerLine := String.intercalate "," (headers.map escapeCSV)
    let rows := documents.map (fun d =>
      String.intercalate "," (headers.map (fun h => escapeCSV (csvCell d h))))
    String.intercalate "\n" (headerLine :: rows) ++ "\n"

def csvFormatter : Formatter :=
  ⟨fun content => .ok (csvParse content), fun docs _ => csvSerialize docs, "csv"⟩

/-! ### FormatConverter (`src/formatters/FormatConverter.ts`) -/

structure ConversionOptions extends FormatOptions where
  sourceFormat : String
  targetFormat : String
  fieldMapping : Option (List (String × String))
  filter : Option (Json → Bool)
  transform : Option (Json → Json)

/-- The formatter registry built in the `FormatConverter` constructor.  The
`yaml` entry delegates to the external `yaml` package and is outside this
embedding; every claim settled here is about the three embedded codecs. -/
def getFormatter (format : String) : Except String Formatter :=
  if format = "json" then .ok jsonFormatter
  else if format = "jsonl" then .ok jsonlFormatter
  else if format = "csv" then .ok csvFormatter
  else .error ("Unsupported format: " ++ format)

/-- JavaScript `toLowerCase` (ASCII range; the format keywords compared
against are all ASCII). -/
def toLowerStr (s : String) : String := String.mk (s.data.map Char.toLower)

/-- `filename.split('.').pop()?.toLowerCase()` and the switch with its
`json` default. -/
def detectFormat (filename : String) : String :=
  let extension := toLowerStr (String.mk ((splitOnChar '.' filename.data).getLastD []))
  if extension = "json" then "json"
  else if extension = "jsonl" then "jsonl"
  else if extension = "csv" then "csv"
  else if extension = "yaml" || extension = "yml" then "yaml"
  else "json"

def applyFieldMapping (doc : Json) (fieldMapping : List (String × String)) : Json :=
  let mapped := fieldMapping.foldl (fun m p =>
    match objGet (docFields doc) p.2 with
    | some v => objSet m p.1 v
    | none => m) ([] : Document)
  let vals := fieldMapping.map (fun p => p.2)
  .obj ((docFields doc).foldl (fun m p =>
    if vals.contains p.1 then m else objSet m p.1 p.2) mapped)

/-- `{...doc, [field]: new Date().toISOString()}`; the current instant is
passed in as `now`. -/
def stampTimestamp (now : String) (field : String) (doc : Json) : Json :=
  .obj (objSet (docFields doc) field (.str now))

/-- The strict conversion pipeline applied by `convertDocuments`:
filter → transform → field mapping → timestamp stamping. -/
def conversionPipeline (documents : List Json) (options : ConversionOptions)
    (now : String) : List Json :=
  let d1 := match options.filter with
    | some f => documents.filter f
    | none => documents
  let d2 := match options.transform with
    | some t => d1.map t
    | none => d1
  let d3 := match options.fieldMapping with
    | some m => d2.map (fun d => applyFieldMapping d m)
    | none => d2
  match options.timestampField with
  | some ts => d3.map (stampTimestamp now ts)
  | none => d3

def convertDocuments (documents : List Json) (options : ConversionOptions)
    (now : String) : Except String String :=
  match getFormatter options.targetFormat with
  | .error e => .error e
  | .ok tf => .ok (tf.serialize (conversionPipeline documents options now) options.toFormatOptions)

def convertContent (content : String) (options : ConversionOptions)
    (now : String) : Except String String :=
  match getFormatter options.sourceFormat, getFormatter options.targetFormat with
  | .error e, _ => .error e
  | _, .error e => .error e
  | .ok sf, .ok tf =>
    match sf.parse content with
    | .error e => .error e
    | .ok documents =>
      .ok (tf.serialize (conversionPipeline documents options now) options.toFormatOptions)

/-! ### TransactionEngine (`src/transaction/TransactionEngine.ts`) -/

/-- A file returned by `api.getFile`: decoded content plus the revision
token (the Git blob SHA). -/
structure GHFile where
  content : String
  sha : String
deriving DecidableEq, Repr

/-- One settled result of `Promise.allSettled([api.getFile(...)])`:
`.error` for a rejected promise, `.ok none` for a 404 (`getFile` returns
`null`), `.ok (some f)` otherwise. -/
abbrev FileResult := Except String (Option GHFile)

/-- A remote write against the store, as issued by `atomicCommit`. -/
inductive RemoteWrite where
  | create (path content message : String)
  | update (path content message sha : String)
deriving DecidableEq, Repr

structure TransferOptions where
  predicate : Json → Bool
  conversion : Option ConversionOptions
  transform : Option (Json → Json)

structure TransactionState where
  sourcePath : String
  destPath : String
  sourceContent : String
  destContent : String
  sourceSha : Option String
  destSha : Option String

/-- `parseFileContent`: a rejected read or a missing file yields `[]`; a
blank file yields `[]`; and the `try`/`catch` around `formatter.parse`
swallows any parse failure, falling back to the empty array. -/
def parseFileContent (fileResult : FileResult) (format : String) : List Json :=
  match fileResult with
  | .error _ => []
  | .ok none => []
  | .ok (some f) =>
    if allWs f.content then []
    else
      match getFormatter format with
      | .error _ => []
      | .ok fm =>
        match fm.parse f.content with
        | .ok docs => docs
        | .error _ => []

/-- `processTransfer`: order-preserving partition of the source documents
by the predicate. -/
def processTransfer (sourceDocs : List Json) (predicate : Json → Bool) :
    List Json × List Json :=
  sourceDocs.partition predicate

def serializeContent (docs : List Json) (format : String) : Except String String :=
  match getFormatter format with
  | .error e => .error e
  | .ok fm => .ok (fm.serialize docs ⟨none, none⟩)

/-- `atomicCommit`: decides the write sequence from which revision tokens
were captured.  The branch order mirrors the source: `!state.sourceSha`
is tested before the dest-exists-source-missing branch, so that fourth
branch of the source (create source, then update destination) is
unreachable.  The `catch` wrapper re-labels thrown errors with
`Transfer failed:`. -/
def atomicCommit (st : TransactionState) (movedCount : Nat) :
    Except String (List RemoteWrite) :=
  let commitMessage := "Transfer: Moved " ++ toString movedCount ++
    " documents from " ++ st.sourcePath ++ " to " ++ st.destPath
  match st.sourceSha, st.destSha with
  | some ss, some ds =>
    .ok [.update st.destPath st.destContent commitMessage ds,
         .update st.sourcePath st.sourceContent commitMessage ss]
  | some ss, none =>
    .ok [.create st.destPath st.destContent commitMessage,
         .update st.sourcePath st.sourceContent commitMessage ss]
  | none, _ =>
    .error ("Transfer failed: Source file " ++ st.sourcePath ++ " does not exist")

/-- The sha captured for a settled `getFile` result (`undefined` unless the
promise was fulfilled with a file). -/
def capturedSha : FileResult → Option String
  | .ok (some f) => some f.sha
  | _ => none

/-- The optional per-document `transform`, as `executeAtomicTransfer`
applies it to the matching documents. -/
def applyTransform : Option (Json → Json) → List Json → List Json
  | some t, docs => docs.map t
  | none, docs => docs

/-- `executeAtomicTransfer` after both reads have settled, as a pure
function from the two settled read results to the commit's write list (or
the thrown error).  `now` stands for `new Date().toISOString()`. -/
def executeAtomicTransfer (sourcePath destPath : String)
    (srcRes destRes : FileResult) (opts : TransferOptions) (now : String) :
    Except String (List RemoteWrite) :=
  let sourceFormat := detectFormat sourcePath
  let destFormat := detectFormat destPath
  let sourceDocs := parseFileContent srcRes sourceFormat
  let destDocs := parseFileContent destRes destFormat
  let parts := processTransfer sourceDocs opts.predicate
  if parts.1.length = 0 then .ok []
  else
    let processedMatching := match opts.transform with
      | some t => parts.1.map t
      | none => parts.1
    match opts.conversion with
    | some conv =>
      match convertDocuments (destDocs ++ processedMatching)
          { conv with sourceFormat := destFormat, targetFormat := destFormat } now with
      | .error e => .error e
      | .ok newDestContent =>
        match convertDocuments parts.2
            { conv with sourceFormat := sourceFormat, targetFormat := sourceFormat } now with
        | .error e => .error e
        | .ok newSourceContent =>
          atomicCommit ⟨sourcePath, destPath, newSourceContent, newDestContent,
            capturedSha srcRes, capturedSha destRes⟩ processedMatching.length
    | none =>
      match serializeContent parts.2 sourceFormat with
      | .error e => .error e
      | .ok newSourceContent =>
        match serializeContent (destDocs ++ processedMatching) destFormat with
        | .error e => .error e
        | .ok newDestContent =>
          atomicCommit ⟨sourcePath, destPath, newSourceContent, newDestContent,
            capturedSha srcRes, capturedSha destRes⟩ processedMatching.length

/-- `convertFormat` (TransactionEngine, lines 249-265) as a pure function
of the fetched source file: a missing file throws; otherwise the content is
converted by `convertContent` with the CALLER-SUPPLIED options — the
codecs used are `options.sourceFormat` / `options.targetFormat`;
`detectFormat` is never consulted — and the result is written to the
destination with a `Convert format:` message. -/
def convertFormat (sourcePath destPath : String) (srcFile : Option GHFile)
    (options : ConversionOptions) (now : String) : Except String (List RemoteWrite) :=
  match srcFile with
  | none => .error ("Source file " ++ sourcePath ++ " not found")
  | some f =>
    match convertContent f.content options now with
    | .error e => .error e
    | .ok converted =>
      .ok [.create destPath converted
        ("Convert format: " ++ sourcePath ++ " -> " ++ destPath)]

/-! ### The transfer lock (`transfer`, lines 34-52) -/

/-- The lock key: plain string concatenation with a dash. -/
def lockKey (sourcePath destPath : String) : String :=
  sourcePath ++ "-" ++ destPath

/-- `transfer`: test the lock entry, fail fast when held, otherwise set it,
run the body and delete the entry in the `finally` block.  The state is the
set of held keys; the function returns the result and the lock table after
completion. -/
def transferLocked (locks : List String) (sourcePath destPath : String)
    (body : Except String (List RemoteWrite)) :
    Except String (List RemoteWrite) × List String :=
  let k := lockKey sourcePath destPath
  if locks.contains k then
    (.error ("Transaction already in progress for " ++ k), locks)
  else
    (body, (k :: locks).erase k)

/-! ### The remote store -/

/-- The remote store as a history of writes per path (most recent first). -/
abbrev Store := List (String × GHFile)

def applyWrite (st : Store) : RemoteWrite → Store
  | .create p c _ => (p, ⟨c, "r" ++ toString st.length⟩) :: st
  | .update p c _ _ => (p, ⟨c, "r" ++ toString st.length⟩) :: st

def applyWrites (st : Store) (ws : List RemoteWrite) : Store :=
  ws.foldl applyWrite st

/-! ### StorageManager write queue (`enqueueWrite` / `processWriteQueue`)

The queue is modelled as a small-step machine over the suspension points of
the JavaScript code: `enq id` is one `enqueueWrite` call (push, then start a
drain iff none is running — the check and set happen in one synchronous
step), and `step` lets the running drain loop make one move (finish on an
empty queue, or execute the front write, whose success or failure is given
by `env`).  `settled` records, in order, each caller's future settling:
the caller that started a drain awaits the whole drain; a caller that
enqueues while a drain is running resolves immediately. -/

inductive WriteEv where
  | enq (id : Nat)
  | step
deriving DecidableEq, Repr

structure QueueState where
  queue : List Nat
  processing : Bool
  loops : Nat
  executed : List Nat
  submitted : List Nat
  drainOwner : Option Nat
  settled : List (Nat × Except Nat Unit)
deriving Repr

def initQueue : QueueState := ⟨[], false, 0, [], [], none, []⟩

def stepEv (env : Nat → Bool) (s : QueueState) : WriteEv → QueueState
  | .enq id =>
    let s2 := { s with queue := s.queue ++ [id], submitted := s.submitted ++ [id] }
    if s.processing then
      { s2 with settled := s2.settled ++ [(id, .ok ())] }
    else
      { s2 with processing := true, loops := s.loops + 1, drainOwner := some id }
  | .step =>
    if s.loops = 0 then s
    else
      match s.queue with
      | [] =>
        { s with
          processing := false
          loops := s.loops - 1
          settled := s.settled ++
            (match s.drainOwner with | some o => [(o, .ok ())] | none => [])
          drainOwner := none }
      | w :: q =>
        if env w then { s with queue := q, executed := s.executed ++ [w] }
        else
          { s with
            queue := q
            executed := s.executed ++ [w]
            loops := s.loops - 1
            settled := s.settled ++
              (match s.drainOwner with | some o => [(o, .error w)] | none => [])
            drainOwner := none }

def runQueue (env : Nat → Bool) (evs : List WriteEv) : QueueState :=
  evs.foldl (stepEv env) initQueue

/-- Iterated drain steps. -/
def stepsN (env : Nat → Bool) (s : QueueState) : Nat → QueueState
  | 0 => s
  | n + 1 => stepsN env (stepEv env s .step) n

/-! ### The compact printer emits no raw newline (JSONL lines are intact) -/

theorem isHexC_ne {c : Char} (hc : isHexC c = true) (d : Char)
    (hd : isHexC d = false) : c ≠ d := by
  intro h
  subst h
  rw [hc] at hd
  cases hd

theorem escChar_no_newline (c : Char) : '\n' ∉ escChar c := by
  unfold escChar
  by_cases g1 : c = '"'
  · simp [g1]
  rw [if_neg g1]
  by_cases g2 : c = '\\'
  · simp [g2]
  rw [if_neg g2]
  by_cases g3 : c = '\x08'
  · simp [g3]
  rw [if_neg g3]
  by_cases g4 : c = '\t'
  · simp [g4]
  rw [if_neg g4]
  by_cases g5 : c = '\n'
  · simp [g5]
  rw [if_neg g5]
  by_cases g6 : c = '\x0c'
  · simp [g6]
  rw [if_neg g6]
  by_cases g7 : c = '\r'
  · simp [g7]
  rw [if_neg g7]
  by_cases g8 : c.toNat < 32
  · rw [if_pos g8]
    have hd1 : c.toNat / 16 < 16 := by omega
    have hd2 : c.toNat % 16 < 16 := Nat.mod_lt _ (by omega)
    have k1 : ('\n' : Char) ≠ hexDigitChar (c.toNat / 16) :=
      Ne.symm (isHexC_ne (hexDigitChar_spec hd1).1 '\n' (by decide))
    have k2 : ('\n' : Char) ≠ hexDigitChar (c.toNat % 16) :=
      Ne.symm (isHexC_ne (hexDigitChar_spec hd2).1 '\n' (by decide))
    simp [k1, k2]
  · rw [if_neg g8]
    simp only [List.mem_singleton]
    exact fun h => g5 h.symm

theorem escapeChars_no_newline (s : List Char) : '\n' ∉ escapeChars s := by
  induction s with
  | nil => simp [escapeChars]
  | cons c cs ih =>
    simp only [escapeChars, List.mem_append]
    rintro (h | h)
    · exact escChar_no_newline c h
    · exact ih h

theorem natChars_no_newline (n : Nat) : '\n' ∉ natChars n := by
  intro h
  have := natChars_all_digits n '\n' h
  simp [isDigitC] at this

theorem intChars_no_newline (n : Int) : '\n' ∉ intChars n := by
  unfold intChars
  split
  · simp only [List.mem_cons]
    rintro (h | h)
    · cases h
    · exact natChars_no_newline _ h
  · exact natChars_no_newline _

/-- With the empty gap the printer is single-line: no raw newline occurs
(newlines inside strings are escaped). -/
theorem emit_compact_no_newline (N : Nat) :
    (∀ v : Json, sizeJ v ≤ N → ∀ ind, '\n' ∉ emitVal [] ind v) ∧
    (∀ xs : List Json, sizeL xs ≤ N → ∀ ind, '\n' ∉ emitArrTail [] ind xs) ∧
    (∀ fs : List (String × Json), sizeF fs ≤ N → ∀ ind, '\n' ∉ emitObjTail [] ind fs) := by
  induction N using Nat.strong_induction_on with
  | _ N ih =>
    have hnl : ∀ ind, nlInd ([] : List Char) ind = ([] : List Char) := by
      intro ind
      simp [nlInd]
    refine ⟨?_, ?_, ?_⟩
    · intro v hN ind
      cases v with
      | null => simp [emitVal]
      | bool b => cases b <;> simp [emitVal]
      | num n => simp only [emitVal]; exact intChars_no_newline n
      | str s => simp [emitVal, quoteChars, escapeChars_no_newline s.data]
      | arr es =>
        cases es with
        | nil => simp [emitVal]
        | cons x xs =>
          have hsz : sizeJ (.arr (x :: xs)) = 3 + sizeJ x + sizeL xs := by simp [sizeJ]
          have h1 : '\n' ∉ emitVal [] ind x :=
            (ih (sizeJ x).succ (by have := one_le_sizeL xs; omega)).1 x (by omega) ind
          have h2 : '\n' ∉ emitArrTail [] ind xs :=
            (ih (sizeL xs).succ (by have := one_le_sizeJ x; omega)).2.1 xs (by omega) ind
          simp [emitVal, hnl, h1, h2]
      | obj fs =>
        cases fs with
        | nil => simp [emitVal]
        | cons fkv fs =>
          obtain ⟨k, v⟩ := fkv
          have hsz : sizeJ (.obj ((k, v) :: fs)) = 3 + sizeJ v + sizeF fs := by simp [sizeJ]
          have h1 : '\n' ∉ emitVal [] ind v :=
            (ih (sizeJ v).succ (by have := one_le_sizeF fs; omega)).1 v (by omega) ind
          have h2 : '\n' ∉ emitObjTail [] ind fs :=
            (ih (sizeF fs).succ (by have := one_le_sizeJ v; omega)).2.2 fs (by omega) ind
          simp [emitVal, emitMember, quoteChars, colonSp, hnl, h1, h2,
            escapeChars_no_newline k.data]
    · intro xs hN ind
      cases xs with
      | nil => simp [emitArrTail]
      | cons x xs =>
        have hsz : sizeL (x :: xs) = 1 + sizeJ x + sizeL xs := by simp [sizeL]
        have h1 : '\n' ∉ emitVal [] ind x :=
          (ih (sizeJ x).succ (by have := one_le_sizeL xs; omega)).1 x (by omega) ind
        have h2 : '\n' ∉ emitArrTail [] ind xs :=
          (ih (sizeL xs).succ (by have := one_le_sizeJ x; omega)).2.1 xs (by omega) ind
        simp [emitArrTail, hnl, h1, h2]
    · intro fs hN ind
      cases fs with
      | nil => simp [emitObjTail]
      | cons fkv fs =>
        obtain ⟨k, v⟩ := fkv
        have hsz : sizeF ((k, v) :: fs) = 1 + sizeJ v + sizeF fs := by simp [sizeF]
        have h1 : '\n' ∉ emitVal [] ind v :=
          (ih (sizeJ v).succ (by have := one_le_sizeF fs; omega)).1 v (by omega) ind
        have h2 : '\n' ∉ emitObjTail [] ind fs :=
          (ih (sizeF fs).succ (by have := one_le_sizeJ v; omega)).2.2 fs (by omega) ind
        simp [emitObjTail, emitMember, quoteChars, colonSp, hnl, h1, h2,
          escapeChars_no_newline k.data]

/-! ### Splitting on newlines -/

theorem splitOnChar_not_mem {sep : Char} {l : List Char} (h : sep ∉ l) :
    splitOnChar sep l = [l] := by
  induction l with
  | nil => rfl
  | cons c cs ih =>
    have hc : c ≠ sep := fun e => h (e ▸ List.mem_cons_self c cs)
    have hcs : sep ∉ cs := fun e => h (List.mem_cons_of_mem c e)
    simp only [splitOnChar, if_neg hc, ih hcs]

theorem splitOnChar_append_sep {sep : Char} {l : List Char} (h : sep ∉ l)
    (r : List Char) : splitOnChar sep (l ++ sep :: r) = l :: splitOnChar sep r := by
  induction l with
  | nil => simp [splitOnChar]
  | cons c cs ih =>
    have hc : c ≠ sep := fun e => h (e ▸ List.mem_cons_self c cs)
    have hcs : sep ∉ cs := fun e => h (List.mem_cons_of_mem c e)
    simp only [List.cons_append, splitOnChar, if_neg hc]
    rw [show cs.append (sep :: r) = cs ++ sep :: r from rfl, ih hcs]

end GithubDB
namespace GithubDB

/-- A path whose suffix after the last dot is (case-insensitively) none of
json, jsonl, csv, yaml, yml falls to the default branch of `detectFormat`,
which returns "json". -/
theorem detectFormat_default (path : String)
    (h : toLowerStr (String.mk ((splitOnChar '.' path.data).getLastD [])) ∉
      (["json", "jsonl", "csv", "yaml", "yml"] : List String)) :
    detectFormat path = "json" := by
  simp only [detectFormat]
  split_ifs with a b c d
  · rfl
  · exact absurd (by rw [b]; decide) h
  · exact absurd (by rw [c]; decide) h
  · rw [Bool.or_eq_true, decide_eq_true_eq, decide_eq_true_eq] at d
    rcases d with d | d
    · exact absurd (by rw [d]; decide) h
    · exact absurd (by rw [d]; decide) h
  · rfl

/-- C3: the four capture shapes at commit time.  Both tokens present:
update destination then source with the captured tokens; source only:
create destination then update source.  But the claimed third shape
(destination existed, source did not → create source, then update
destination) never happens: because `!state.sourceSha` is tested before
the destination-only branch, a missing source fails with the
source-not-found error even when the destination exists, and no remote
write is issued — the fourth branch of the code is unreachable. -/
theorem claim_c3_commit_shapes :
    (atomicCommit ⟨"a.json", "b.json", "SRC", "DST", some "s1", some "d1"⟩ 2 =
      .ok [.update "b.json" "DST"
             "Transfer: Moved 2 documents from a.json to b.json" "d1",
           .update "a.json" "SRC"
             "Transfer: Moved 2 documents from a.json to b.json" "s1"]) ∧
    (atomicCommit ⟨"a.json", "b.json", "SRC", "DST", some "s1", none⟩ 2 =
      .ok [.create "b.json" "DST"
             "Transfer: Moved 2 documents from a.json to b.json",
           .update "a.json" "SRC"
             "Transfer: Moved 2 documents from a.json to b.json" "s1"]) ∧
    (atomicCommit ⟨"a.json", "b.json", "SRC", "DST", none, none⟩ 2 =
      .error "Transfer failed: Source file a.json does not exist") ∧
    (atomicCommit ⟨"a.json", "b.json", "SRC", "DST", none, some "d1"⟩ 2 =
      .error "Transfer failed: Source file a.json does not exist") :=
  ⟨rfl, rfl, rfl, rfl⟩

/-- C4 counterexample: the lock key is plain string concatenation with a
dash, so the distinct pairs ("a-b", "c") and ("a", "b-c") share the key
"a-b-c" and the second transfer is rejected for lock contention even
though the pairs differ. -/
theorem claim_c4_counterexample :
    (("a-b", "c") ≠ (("a", "b-c") : String × String)) ∧
    lockKey "a-b" "c" = lockKey "a" "b-c" ∧
    (transferLocked [lockKey "a-b" "c"] "a" "b-c" (.ok [])).1 =
      .error "Transaction already in progress for a-b-c" :=
  ⟨by decide, by decide, rfl⟩

/-- C4 amended: a transfer whose dash-joined key is already held fails
immediately with the in-progress error; a transfer whose key differs from
every held key proceeds (identical `(sourcePath, destPath)` pairs always
collide, but so do distinct pairs whose dash-joins coincide); and the
`finally` block releases exactly the key taken, so a later call with the
same pair proceeds. -/
theorem claim_c4_lock :
    (∀ (locks : List String) (s d : String) (body : Except String (List RemoteWrite)),
      (transferLocked (lockKey s d :: locks) s d body).1 =
        .error ("Transaction already in progress for " ++ lockKey s d)) ∧
    (∀ (locks : List String) (s d s2 d2 : String) (body : Except String (List RemoteWrite)),
      lockKey s2 d2 ∉ locks → lockKey s2 d2 ≠ lockKey s d →
      transferLocked (lockKey s d :: locks) s2 d2 body = (body, lockKey s d :: locks)) ∧
    (∀ (locks : List String) (s d : String) (body : Except String (List RemoteWrite)),
      lockKey s d ∉ locks →
      transferLocked locks s d body = (body, locks)) := by
  refine ⟨?_, ?_, ?_⟩
  · intro locks s d body
    simp [transferLocked]
  · intro locks s d s2 d2 body hmem hne
    simp [transferLocked, List.erase_cons_head, hne, hmem]
  · intro locks s d body hmem
    simp [transferLocked, List.erase_cons_head, hmem]

theorem claim_c4_witness :
    ((transferLocked [lockKey "users.json" "archive.json"] "users.json" "archive.json"
        (.ok [])).1 =
      .error ("Transaction already in progress for " ++
        lockKey "users.json" "archive.json")) ∧
    (lockKey "other.json" "dest2.json" ∉ ([] : List String) ∧
      lockKey "other.json" "dest2.json" ≠ lockKey "users.json" "archive.json" ∧
      transferLocked [lockKey "users.json" "archive.json"] "other.json" "dest2.json"
        (.ok []) = (.ok [], [lockKey "users.json" "archive.json"])) ∧
    (lockKey "users.json" "archive.json" ∉ ([] : List String) ∧
      transferLocked [] "users.json" "archive.json" (.ok []) = (.ok [], [])) :=
  ⟨claim_c4_lock.1 [] "users.json" "archive.json" (.ok []),
   ⟨by decide, by decide,
    claim_c4_lock.2.1 [] "users.json" "archive.json" "other.json" "dest2.json" (.ok [])
      (by decide) (by decide)⟩,
   ⟨by decide,
    claim_c4_lock.2.2 [] "users.json" "archive.json" (.ok []) (by decide)⟩⟩


/-! ### Claim C2 -/

/-- C2 counterexample: the JSONL strategy does signal a format error with
the 1-based index on malformed input, but `parseFileContent` catches the
failure and returns the empty sequence, so the transfer coordinator treats
the side as empty and the documents are silently dropped rather than the
failure propagating. -/
theorem claim_c2_counterexample :
    jsonlParse "\x7b" = .error "Invalid JSONL at line 1" ∧
    parseFileContent (.ok (some ⟨"\x7b", "sha1"⟩)) "jsonl" = [] :=
  ⟨rfl, rfl⟩

theorem jsonlParseLines_error (bad : String) (hbad : jsonParse bad = none) :
    ∀ (good : List String) (i : Nat) (rest : List String),
    (∀ l ∈ good, ∃ v, jsonParse l = some v) →
    jsonlParseLines i (good ++ bad :: rest) =
      .error ("Invalid JSONL at line " ++ toString (i + good.length + 1)) := by
  intro good
  induction good with
  | nil =>
    intro i rest _
    simp [jsonlParseLines, hbad]
  | cons l ls ih =>
    intro i rest hgood
    obtain ⟨v, hv⟩ := hgood l (List.mem_cons_self l ls)
    have := ih (i + 1) rest (fun l2 h2 => hgood l2 (List.mem_cons_of_mem l h2))
    simp only [List.cons_append, jsonlParseLines, hv]
    rw [show ls.append (bad :: rest) = ls ++ bad :: rest from rfl, this]
    have harith : i + 1 + ls.length + 1 = i + (ls.length + 1) + 1 := by omega
    simp [harith]

/-- C2 amended: the JSONL strategy reports the 1-based index of the first
malformed document among the kept lines; but the transfer coordinator
(`parseFileContent`) catches every strategy failure and falls back to the
empty sequence, silently dropping the side rather than propagating. -/
theorem claim_c2_amended :
    (∀ (good : List String) (bad : String) (rest : List String),
      (∀ l ∈ good, ∃ v, jsonParse l = some v) → jsonParse bad = none →
      jsonlParseLines 0 (good ++ bad :: rest) =
        .error ("Invalid JSONL at line " ++ toString (good.length + 1))) ∧
    (∀ (f : GHFile) (fmt : String) (F : Formatter) (e : String),
      getFormatter fmt = .ok F → F.parse f.content = .error e →
      parseFileContent (.ok (some f)) fmt = []) := by
  constructor
  · intro good bad rest hgood hbad
    have := jsonlParseLines_error bad hbad good 0 rest hgood
    simpa using this
  · intro f fmt F e hF hp
    by_cases hb : allWs f.content
    · simp [parseFileContent, hb]
    · simp [parseFileContent, hb, hF, hp]

theorem claim_c2_witness :
    ((∀ l ∈ (["\x7b\"a\":1\x7d"] : List String), ∃ v, jsonParse l = some v) ∧
      jsonParse "nope" = none ∧
      jsonlParseLines 0 (["\x7b\"a\":1\x7d"] ++ "nope" :: []) =
        .error "Invalid JSONL at line 2") ∧
    (getFormatter "jsonl" = .ok jsonlFormatter ∧
      jsonlFormatter.parse "\x7b" = .error "Invalid JSONL at line 1" ∧
      parseFileContent (.ok (some ⟨"\x7b", "sha9"⟩)) "jsonl" = []) :=
  ⟨⟨by intro l hl; rw [List.mem_singleton] at hl; exact ⟨.obj [("a", .num 1)], by rw [hl]; rfl⟩,
    rfl,
    claim_c2_amended.1 ["\x7b\"a\":1\x7d"] "nope" [] (by
      intro l hl
      rw [List.mem_singleton] at hl
      exact ⟨.obj [("a", .num 1)], by rw [hl]; rfl⟩) rfl⟩,
   ⟨rfl, rfl, claim_c2_amended.2 ⟨"\x7b", "sha9"⟩ "jsonl" jsonlFormatter
      "Invalid JSONL at line 1" rfl rfl⟩⟩

/-! ### Claim C7 -/

/-- C7 counterexample: a doubled quote inside a quoted field parses to the
empty string, not to a single quote character — `parseCSVLine` strips every
quote character. -/
theorem claim_c7_counterexample :
    parseCSVLine "\"x\"\"y\"" = ["xy"] ∧ ("xy" : String) ≠ "x\"y" :=
  ⟨rfl, by decide⟩

theorem parseCSVLineChars_quoted_run (s : List Char) (hq : '"' ∉ s) :
    ∀ (cur rest : List Char),
    parseCSVLineChars (s ++ rest) cur true = parseCSVLineChars rest (cur ++ s) true := by
  induction s with
  | nil => intro cur rest; simp
  | cons c cs ih =>
    intro cur rest
    have hc : c ≠ '"' := fun e => hq (e ▸ List.mem_cons_self c cs)
    have hcs : '"' ∉ cs := fun e => hq (List.mem_cons_of_mem c e)
    simp only [List.cons_append, parseCSVLineChars, if_neg hc, Bool.not_true,
      Bool.and_false]
    rw [if_neg (by simp), show cs.append rest = cs ++ rest from rfl,
      ih hcs (cur ++ [c]) rest]
    simp

/-- C7 amended: the tabular parse of the example yields the two stated
documents; a quoted field may contain the delimiter (and any characters
other than the quote); but quote characters themselves are stripped — a
doubled quote contributes nothing to the field (it toggles the flag twice)
— and escaping on serialize doubles quotes as stated. -/
theorem claim_c7_quoting :
    (csvParse "id,name\n1,Alice\n2,\"B,ob\"" =
      [.obj [("id", .str "1"), ("name", .str "Alice")],
       .obj [("id", .str "2"), ("name", .str "B,ob")]]) ∧
    (∀ (rest cur : List Char) (q : Bool),
      parseCSVLineChars ('"' :: '"' :: rest) cur q = parseCSVLineChars rest cur q) ∧
    (∀ s : List Char, '"' ∉ s →
      parseCSVLineChars ('"' :: (s ++ ['"'])) [] false = [s]) ∧
    (∀ v : String, v.data.contains '"' = true →
      escapeCSV v = "\"" ++ String.mk (doubleQuotes v.data) ++ "\"") := by
  refine ⟨rfl, ?_, ?_, ?_⟩
  · intro rest cur q
    simp [parseCSVLineChars]
  · intro s hq
    have h1 : parseCSVLineChars ('"' :: (s ++ ['"'])) [] false =
        parseCSVLineChars (s ++ ['"']) [] true := by
      simp [parseCSVLineChars]
    rw [h1, parseCSVLineChars_quoted_run s hq [] ['"']]
    simp [parseCSVLineChars]
  · intro v hv
    have hv2 : '"' ∈ v.data := by simpa using hv
    have hcond : (v.data.contains ',' || v.data.contains '"' ||
        v.data.contains '\n') = true := by
      simp [hv2]
    simp only [escapeCSV]
    rw [if_pos hcond]

theorem claim_c7_witness :
    (parseCSVLineChars ('"' :: '"' :: ('a' :: [])) [] false =
      parseCSVLineChars ('a' :: []) [] false) ∧
    ('"' ∉ (['B', ',', 'o', 'b'] : List Char) ∧
      parseCSVLineChars ('"' :: (['B', ',', 'o', 'b'] ++ ['"'])) [] false =
        [['B', ',', 'o', 'b']]) ∧
    ("B\"ob".data.contains '"' = true ∧
      escapeCSV "B\"ob" = "\"" ++ String.mk (doubleQuotes "B\"ob".data) ++ "\"") :=
  ⟨claim_c7_quoting.2.1 ['a'] [] false,
   ⟨by decide, claim_c7_quoting.2.2.1 ['B', ',', 'o', 'b'] (by decide)⟩,
   ⟨by decide, claim_c7_quoting.2.2.2 "B\"ob" (by decide)⟩⟩

/-! ### Claim C9 -/

/-- C9 counterexample: write 0 starts a drain and succeeds; write 1 is
enqueued while the drain runs and later fails during execution.  Write 1's
future settled successfully at enqueue time, before its write ran, and the
failure instead rejected write 0's future — the future does not carry the
write's own outcome. -/
theorem claim_c9_counterexample :
    (runQueue (fun w => w != 1) [.enq 0, .enq 1, .step, .step]).settled =
      [(1, .ok ()), (0, .error 1)] ∧
    (fun (w : Nat) => w != 1) 1 = false :=
  ⟨rfl, rfl⟩

/-- C9 amended: an enqueue issued while a drain is in progress settles its
caller's future successfully immediately, regardless of how the write later
executes; when a queued write fails during a drain, the rejection is
delivered to the drain-owning caller (the one whose enqueue started the
drain); and once the loop counter is zero (as after a failure, which leaves
the processing flag set), further drain steps do nothing, so remaining
queued writes never execute. -/
theorem claim_c9_settlement :
    (∀ (env : Nat → Bool) (s : QueueState) (id : Nat), s.processing = true →
      (stepEv env s (.enq id)).settled = s.settled ++ [(id, .ok ())]) ∧
    (∀ (env : Nat → Bool) (s : QueueState) (w : Nat) (q : List Nat) (o : Nat),
      s.queue = w :: q → s.loops ≠ 0 → env w = false → s.drainOwner = some o →
      (stepEv env s .step).settled = s.settled ++ [(o, .error w)]) ∧
    (∀ (env : Nat → Bool) (s : QueueState), s.loops = 0 → stepEv env s .step = s) := by
  refine ⟨?_, ?_, ?_⟩
  · intro env s id hp
    simp [stepEv, hp]
  · intro env s w q o hq hl hw ho
    simp [stepEv, hq, hl, hw, ho]
  · intro env s hl
    simp [stepEv, hl]

theorem claim_c9_witness :
    ((stepEv (fun _ => true) ⟨[5], true, 1, [], [5], some 4, []⟩ (.enq 7)).settled =
      [(7, .ok ())]) ∧
    ((stepEv (fun _ => false) ⟨[5], true, 1, [], [5], some 4, []⟩ .step).settled =
      [(4, .error 5)]) ∧
    (stepEv (fun _ => false) ⟨[9], true, 0, [], [9], none, []⟩ .step =
      ⟨[9], true, 0, [], [9], none, []⟩) :=
  ⟨claim_c9_settlement.1 (fun _ => true) ⟨[5], true, 1, [], [5], some 4, []⟩ 7 rfl,
   claim_c9_settlement.2.1 (fun _ => false) ⟨[5], true, 1, [], [5], some 4, []⟩ 5 [] 4
     rfl (by decide) rfl rfl,
   claim_c9_settlement.2.2 (fun _ => false) ⟨[9], true, 0, [], [9], none, []⟩ rfl⟩


/-! ### Claim C6 -/

theorem stepEv_enq_processing (env : Nat → Bool) (s : QueueState) (id : Nat)
    (hp : s.processing = true) : stepEv env s (.enq id) =
    { s with
      queue := s.queue ++ [id]
      submitted := s.submitted ++ [id]
      settled := s.settled ++ [(id, .ok ())] } := by
  simp [stepEv, hp]

theorem stepEv_enq_idle (env : Nat → Bool) (s : QueueState) (id : Nat)
    (hp : s.processing = false) : stepEv env s (.enq id) =
    { s with
      queue := s.queue ++ [id]
      submitted := s.submitted ++ [id]
      processing := true
      loops := s.loops + 1
      drainOwner := some id } := by
  simp [stepEv, hp]

theorem stepEv_step_zero (env : Nat → Bool) (s : QueueState) (hl : s.loops = 0) :
    stepEv env s .step = s := by
  simp [stepEv, hl]

theorem stepEv_step_empty (env : Nat → Bool) (s : QueueState) (hl : ¬s.loops = 0)
    (hq : s.queue = []) : stepEv env s .step =
    { s with
      processing := false
      loops := s.loops - 1
      settled := s.settled ++
        (match s.drainOwner with | some o => [(o, .ok ())] | none => [])
      drainOwner := none } := by
  simp [stepEv, hl, hq]

theorem stepEv_step_ok (env : Nat → Bool) (s : QueueState) (w : Nat) (q : List Nat)
    (hl : ¬s.loops = 0) (hq : s.queue = w :: q) (hw : env w = true) :
    stepEv env s .step = { s with queue := q, executed := s.executed ++ [w] } := by
  simp [stepEv, hl, hq, hw]

theorem stepEv_step_fail (env : Nat → Bool) (s : QueueState) (w : Nat) (q : List Nat)
    (hl : ¬s.loops = 0) (hq : s.queue = w :: q) (hw : env w = false) :
    stepEv env s .step =
    { s with
      queue := q
      executed := s.executed ++ [w]
      loops := s.loops - 1
      settled := s.settled ++
        (match s.drainOwner with | some o => [(o, .error w)] | none => [])
      drainOwner := none } := by
  simp [stepEv, hl, hq, hw]

/-- The write-queue invariant: the executed writes followed by the pending
queue are exactly the submitted writes in submission order; at most one
drain loop is active; and when the processing flag is clear the queue is
empty and no loop runs. -/
def QInv (s : QueueState) : Prop :=
  s.executed ++ s.queue = s.submitted ∧ s.loops ≤ 1 ∧
    (s.processing = false → s.loops = 0 ∧ s.queue = [])

/-- Under an all-success environment, an active processing flag always has
exactly one live drain loop (no wedging). -/
def QRun (s : QueueState) : Prop := s.processing = true → s.loops = 1

theorem qInv_init : QInv initQueue :=
  ⟨rfl, by decide, fun _ => ⟨rfl, rfl⟩⟩

theorem qInv_step (env : Nat → Bool) (s : QueueState) (e : WriteEv) (h : QInv s) :
    QInv (stepEv env s e) := by
  obtain ⟨h1, h2, h3⟩ := h
  cases e with
  | enq id =>
    by_cases hp : s.processing = true
    · rw [stepEv_enq_processing env s id hp]
      refine ⟨?_, h2, ?_⟩
      · show s.executed ++ (s.queue ++ [id]) = s.submitted ++ [id]
        rw [← List.append_assoc, h1]
      · intro hc
        have hc2 : s.processing = false := hc
        rw [hp] at hc2
        cases hc2
    · have hp2 : s.processing = false := by simpa using hp
      rw [stepEv_enq_idle env s id hp2]
      refine ⟨?_, ?_, ?_⟩
      · show s.executed ++ (s.queue ++ [id]) = s.submitted ++ [id]
        rw [← List.append_assoc, h1]
      · show s.loops + 1 ≤ 1
        have := (h3 hp2).1
        omega
      · intro hc
        cases hc
  | step =>
    by_cases hl : s.loops = 0
    · rw [stepEv_step_zero env s hl]
      exact ⟨h1, h2, h3⟩
    · rcases hq : s.queue with _ | ⟨w, q⟩
      · rw [stepEv_step_empty env s hl hq]
        refine ⟨?_, ?_, ?_⟩
        · show s.executed ++ s.queue = s.submitted
          exact h1
        · show s.loops - 1 ≤ 1
          omega
        · intro _
          exact ⟨by show s.loops - 1 = 0; omega, hq⟩
      · by_cases hw : env w = true
        · rw [stepEv_step_ok env s w q hl hq hw]
          refine ⟨?_, h2, ?_⟩
          · show (s.executed ++ [w]) ++ q = s.submitted
            rw [List.append_assoc, ← h1, hq]
            rfl
          · intro hc
            have hc2 : s.processing = false := hc
            have := (h3 hc2).2
            rw [hq] at this
            cases this
        · have hw2 : env w = false := by simpa using hw
          rw [stepEv_step_fail env s w q hl hq hw2]
          refine ⟨?_, ?_, ?_⟩
          · show (s.executed ++ [w]) ++ q = s.submitted
            rw [List.append_assoc, ← h1, hq]
            rfl
          · show s.loops - 1 ≤ 1
            omega
          · intro hc
            have hc2 : s.processing = false := hc
            have := (h3 hc2).2
            rw [hq] at this
            cases this

theorem qInvS_step (env : Nat → Bool) (henv : ∀ w, env w = true) (s : QueueState)
    (e : WriteEv) (h : QInv s ∧ QRun s) : QInv (stepEv env s e) ∧ QRun (stepEv env s e) := by
  refine ⟨qInv_step env s e h.1, ?_⟩
  obtain ⟨⟨h1, h2, h3⟩, hr⟩ := h
  cases e with
  | enq id =>
    by_cases hp : s.processing = true
    · rw [stepEv_enq_processing env s id hp]
      intro _
      exact hr hp
    · have hp2 : s.processing = false := by simpa using hp
      rw [stepEv_enq_idle env s id hp2]
      intro _
      show s.loops + 1 = 1
      have := (h3 hp2).1
      omega
  | step =>
    by_cases hl : s.loops = 0
    · rw [stepEv_step_zero env s hl]
      exact hr
    · rcases hq : s.queue with _ | ⟨w, q⟩
      · rw [stepEv_step_empty env s hl hq]
        intro hc
        cases hc
      · rw [stepEv_step_ok env s w q hl hq (henv w)]
        intro hc
        exact hr hc

theorem qInvS_run (env : Nat → Bool) (henv : ∀ w, env w = true) (evs : List WriteEv) :
    QInv (runQueue env evs) ∧ QRun (runQueue env evs) := by
  suffices h : ∀ s, QInv s ∧ QRun s → QInv (evs.foldl (stepEv env) s) ∧
      QRun (evs.foldl (stepEv env) s) from
    h initQueue ⟨qInv_init, fun hc => by cases hc⟩
  induction evs with
  | nil => exact fun s hs => hs
  | cons e es ih => exact fun s hs => ih _ (qInvS_step env henv s e hs)

theorem qInv_run (env : Nat → Bool) (evs : List WriteEv) : QInv (runQueue env evs) := by
  suffices h : ∀ s, QInv s → QInv (evs.foldl (stepEv env) s) from h initQueue qInv_init
  induction evs with
  | nil => exact fun s hs => hs
  | cons e es ih => exact fun s hs => ih _ (qInv_step env s e hs)

theorem drain_all (env : Nat → Bool) (henv : ∀ w, env w = true) :
    ∀ (n : Nat) (s : QueueState), QInv s → QRun s → s.queue.length = n →
    (stepsN env s n).executed = s.submitted := by
  intro n
  induction n with
  | zero =>
    intro s hInv _ hlen
    have hqnil : s.queue = [] := List.eq_nil_of_length_eq_zero hlen
    show s.executed = s.submitted
    rw [← hInv.1, hqnil, List.append_nil]
  | succ n ih =>
    intro s hInv hRun hlen
    rcases hq : s.queue with _ | ⟨w, q⟩
    · rw [hq] at hlen
      cases hlen
    · by_cases hp : s.processing = true
      · have hl1 : s.loops = 1 := hRun hp
        show (stepsN env (stepEv env s .step) n).executed = s.submitted
        have hstep := stepEv_step_ok env s w q (by omega) hq (henv w)
        have hpair := qInvS_step env henv s .step ⟨hInv, hRun⟩
        rw [hstep] at hpair ⊢
        have hlen2 : q.length = n := by
          rw [hq] at hlen
          simpa using hlen
        exact ih _ hpair.1 hpair.2 hlen2
      · have hp2 : s.processing = false := by simpa using hp
        have := (hInv.2.2 hp2).2
        rw [hq] at this
        cases this

/-- C6: all writes submitted through one storage manager's queue execute in
strict FIFO submission order — after any interleaving of enqueues and drain
steps, the executed writes followed by the still-pending queue are exactly
the submitted writes in submission order (so execution is never reordered
or interleaved), at most one drain loop is ever active, and when every
write succeeds, draining the pending queue executes all submitted writes in
that order. -/
theorem claim_c6_fifo (env : Nat → Bool) (evs : List WriteEv) :
    ((runQueue env evs).executed ++ (runQueue env evs).queue =
      (runQueue env evs).submitted) ∧
    ((runQueue env evs).loops ≤ 1) ∧
    ((∀ w, env w = true) →
      (stepsN env (runQueue env evs) (runQueue env evs).queue.length).executed =
        (runQueue env evs).submitted) := by
  have hInv := qInv_run env evs
  refine ⟨hInv.1, hInv.2.1, ?_⟩
  intro henv
  exact drain_all env henv _ _ hInv (qInvS_run env henv evs).2 rfl

/-- C6 witness: three writes to distinct paths enqueued while a fourth is
mid-execution all run in submission order. -/
theorem claim_c6_witness :
    (((runQueue (fun _ => true) [.enq 0, .step, .enq 1, .enq 2, .enq 3]).executed ++
      (runQueue (fun _ => true) [.enq 0, .step, .enq 1, .enq 2, .enq 3]).queue =
      (runQueue (fun _ => true) [.enq 0, .step, .enq 1, .enq 2, .enq 3]).submitted) ∧
    ((runQueue (fun _ => true) [.enq 0, .step, .enq 1, .enq 2, .enq 3]).loops ≤ 1) ∧
    ((∀ w, (fun (_ : Nat) => true) w = true) →
      (stepsN (fun _ => true) (runQueue (fun _ => true) [.enq 0, .step, .enq 1, .enq 2, .enq 3])
          (runQueue (fun _ => true) [.enq 0, .step, .enq 1, .enq 2, .enq 3]).queue.length).executed =
        (runQueue (fun _ => true) [.enq 0, .step, .enq 1, .enq 2, .enq 3]).submitted)) ∧
    (stepsN (fun _ => true) (runQueue (fun _ => true) [.enq 0, .step, .enq 1, .enq 2, .enq 3])
        (runQueue (fun _ => true) [.enq 0, .step, .enq 1, .enq 2, .enq 3]).queue.length).executed =
      [0, 1, 2, 3] :=
  ⟨claim_c6_fifo (fun _ => true) [.enq 0, .step, .enq 1, .enq 2, .enq 3], rfl⟩

/-! ### Claim C8 -/

/-- C8: a transfer whose predicate matches no source document returns
before the commit stage with an empty write list, so no remote write is
issued and the store (both contents and revision tokens) is exactly as it
was before the call. -/
theorem claim_c8_no_match (sourcePath destPath : String) (srcRes destRes : FileResult)
    (opts : TransferOptions) (now : String) (store : Store)
    (h : ∀ d ∈ parseFileContent srcRes (detectFormat sourcePath),
      opts.predicate d = false) :
    executeAtomicTransfer sourcePath destPath srcRes destRes opts now = .ok [] ∧
    applyWrites store [] = store := by
  refine ⟨?_, rfl⟩
  have hfilter : (parseFileContent srcRes (detectFormat sourcePath)).filter
      opts.predicate = [] := by
    rw [List.filter_eq_nil_iff]
    intro d hd
    simp [h d hd]
  simp [executeAtomicTransfer, processTransfer, List.partition_eq_filter_filter, hfilter]

/-- C8 witness: a nothing-matches predicate over a one-document source
yields no writes and an unchanged store. -/
theorem claim_c8_witness :
    executeAtomicTransfer "a.jsonl" "b.jsonl"
        (.ok (some ⟨"\x7b\"a\":1\x7d\n", "s1"⟩)) (.ok none)
        ⟨fun _ => false, none, none⟩ "T0" = .ok [] ∧
      applyWrites ([("a.jsonl", ⟨"\x7b\"a\":1\x7d\n", "s1"⟩)] : Store) [] =
        [("a.jsonl", ⟨"\x7b\"a\":1\x7d\n", "s1"⟩)] :=
  claim_c8_no_match "a.jsonl" "b.jsonl" (.ok (some ⟨"\x7b\"a\":1\x7d\n", "s1"⟩))
    (.ok none) ⟨fun _ => false, none, none⟩ "T0"
    [("a.jsonl", ⟨"\x7b\"a\":1\x7d\n", "s1"⟩)] (fun d _ => rfl)

/-! ### Claim C5 -/

/-- C5 counterexample: the tabular codec does not satisfy the round-trip
law even for a flat one-field document — serialization stringifies the
numeric value and parse returns every cell as a string, so
`parse(serialize([d]))` differs from `[d]` under any field ordering. -/
theorem claim_c5_counterexample :
    csvParse (csvSerialize [.obj [("a", .num 1)]]) = [.obj [("a", .str "1")]] ∧
    ([Json.obj [("a", .str "1")]] ≠ [Json.obj [("a", .num 1)]]) := by
  have h1 : jsToString (.num 1) = "1" := by
    simp [jsToString, intChars, natChars]
    decide
  have hser : csvSerialize [.obj [("a", .num 1)]] = "a\n1\n" := by
    simp [csvSerialize, csvCell, objGet, docFields, h1, dedupKeys, dedupAux, escapeCSV]
    decide
  refine ⟨?_, by decide⟩
  rw [hser]
  decide

theorem jsonStringify_zero (v : Json) :
    jsonStringify 0 v = String.mk (emitVal [] [] v) := rfl

/-- C5 amended: the round-trip law `parse(serialize([d])) = [d]` holds on
the nose (field order preserved) for the whole-document array-or-scalar
codec — including the bare-object asymmetry: serializing a one-element
sequence yields the bare stringified object and parsing it back still
yields exactly that one-element sequence — and for the JSONL codec; the
tabular codec violates it (see the counterexample), and the YAML strategy
is an external library outside this embedding. -/
theorem claim_c5_roundtrip (fs : List (String × Json)) (opts : FormatOptions) :
    (jsonFormatterSerialize [.obj fs] opts =
      jsonStringify (opts.indent.getD 2) (.obj fs)) ∧
    jsonFormatterParse (jsonFormatterSerialize [.obj fs] opts) = .ok [.obj fs] ∧
    jsonlParse (jsonlSerialize [.obj fs]) = .ok [.obj fs] := by
  refine ⟨rfl, ?_, ?_⟩
  · obtain ⟨c, t, hct, _, _, _, hw2⟩ :=
      emitVal_head (List.replicate (min (opts.indent.getD 2) 10) ' ') [] (.obj fs)
    have hnw : allWs (jsonFormatterSerialize [Json.obj fs] opts) = false := by
      show allWs (String.mk (emitVal (List.replicate (min (opts.indent.getD 2) 10) ' ')
        [] (.obj fs))) = false
      simp only [allWs]
      rw [hct]
      simp [hw2]
    have hp : jsonParse (jsonFormatterSerialize [Json.obj fs] opts) = some (.obj fs) :=
      jsonParse_jsonStringify (opts.indent.getD 2) (.obj fs)
    simp [jsonFormatterParse, hnw, hp]
  · obtain ⟨c2, t2, hct2, _, _, _, hw22⟩ := emitVal_head [] [] (.obj fs)
    have hnl : '\n' ∉ emitVal [] [] (.obj fs) :=
      (emit_compact_no_newline (sizeJ (.obj fs))).1 _ le_rfl []
    have hser : jsonlSerialize [Json.obj fs] =
        String.mk (emitVal [] [] (.obj fs) ++ ['\n']) := by
      simp [jsonlSerialize, List.intercalate]
    rw [hser]
    have hnw : allWs (String.mk (emitVal [] [] (.obj fs) ++ ['\n'])) = false := by
      simp only [allWs]
      rw [hct2]
      simp [hw22]
    have hsplit : splitOnChar '\n' (emitVal [] [] (.obj fs) ++ ['\n']) =
        [emitVal [] [] (.obj fs), []] := by
      rw [show emitVal [] [] (Json.obj fs) ++ ['\n'] =
        emitVal [] [] (Json.obj fs) ++ '\n' :: [] from rfl,
        splitOnChar_append_sep hnl]
      rfl
    have hkept : keptLine (emitVal [] [] (.obj fs)) = true := by
      simp only [keptLine]
      rw [hct2]
      simp [hw22]
    have hp0 : jsonParse (String.mk (emitVal [] [] (.obj fs))) = some (.obj fs) := by
      rw [← jsonStringify_zero]
      exact jsonParse_jsonStringify 0 (.obj fs)
    have hdata : (String.mk (emitVal [] [] (Json.obj fs) ++ ['\n'])).data =
        emitVal [] [] (Json.obj fs) ++ ['\n'] := rfl
    have hk2 : (!(emitVal [] [] (Json.obj fs)).all fun c => jsWs c) = true := hkept
    simp only [jsonlParse, hnw, Bool.false_eq_true, if_false, hdata, hsplit,
      List.filter, hk2]
    simp [jsonlParseLines, hp0, keptLine, hk2]

/-! ### Claim C1 -/

theorem emit_objA :
    emitVal [] [] (.obj [("a", .num 1), ("ts", .str "T0")]) =
      ("\x7b\"a\":1,\"ts\":\"T0\"\x7d" : String).data := by
  simp [emitVal, emitMember, emitObjTail, colonSp, nlInd, quoteChars, intChars, natChars]
  decide

theorem emit_objB :
    emitVal [] [] (.obj [("b", .num 2), ("ts", .str "T0")]) =
      ("\x7b\"b\":2,\"ts\":\"T0\"\x7d" : String).data := by
  simp [emitVal, emitMember, emitObjTail, colonSp, nlInd, quoteChars, intChars, natChars]
  decide

theorem emit_objB0 :
    emitVal [] [] (.obj [("b", .num 2)]) = ("\x7b\"b\":2\x7d" : String).data := by
  simp [emitVal, emitMember, emitObjTail, colonSp, nlInd, quoteChars, intChars, natChars]
  decide

theorem jsonlSerialize_objA :
    jsonlSerialize [.obj [("a", .num 1), ("ts", .str "T0")]] =
      "\x7b\"a\":1,\"ts\":\"T0\"\x7d\n" := by
  simp [jsonlSerialize, List.intercalate, emit_objA]

theorem jsonlSerialize_objB :
    jsonlSerialize [.obj [("b", .num 2), ("ts", .str "T0")]] =
      "\x7b\"b\":2,\"ts\":\"T0\"\x7d\n" := by
  simp [jsonlSerialize, List.intercalate, emit_objB]

theorem jsonlSerialize_objB0 :
    jsonlSerialize [.obj [("b", .num 2)]] = "\x7b\"b\":2\x7d\n" := by
  simp [jsonlSerialize, List.intercalate, emit_objB0]

/-- C1 counterexample: a transfer with conversion options carrying only a
`timestampField` moves the `a` document; but the content written back to
the source is the remaining document WITH the timestamp stamped onto it —
the conversion pipeline runs on the remaining documents too — rather than
the remaining document serialized unchanged. -/
theorem claim_c1_counterexample :
    (executeAtomicTransfer "s.jsonl" "d.jsonl"
        (.ok (some ⟨"\x7b\"a\":1\x7d\n\x7b\"b\":2\x7d\n", "s1"⟩)) (.ok none)
        ⟨fun d => (objGet (docFields d) "a").isSome,
         some ⟨⟨none, some "ts"⟩, "jsonl", "jsonl", none, none, none⟩, none⟩ "T0" =
      .ok [.create "d.jsonl" "\x7b\"a\":1,\"ts\":\"T0\"\x7d\n"
             "Transfer: Moved 1 documents from s.jsonl to d.jsonl",
           .update "s.jsonl" "\x7b\"b\":2,\"ts\":\"T0\"\x7d\n"
             "Transfer: Moved 1 documents from s.jsonl to d.jsonl" "s1"]) ∧
    serializeContent [.obj [("b", .num 2)]] "jsonl" = .ok "\x7b\"b\":2\x7d\n" ∧
    ("\x7b\"b\":2,\"ts\":\"T0\"\x7d\n" : String) ≠ "\x7b\"b\":2\x7d\n" := by
  have hgf : getFormatter "jsonl" = .ok jsonlFormatter := rfl
  have hsc : serializeContent [.obj [("b", .num 2)]] "jsonl" = .ok "\x7b\"b\":2\x7d\n" := by
    simp [serializeContent, hgf, jsonlFormatter, jsonlSerialize_objB0]
  refine ⟨?_, hsc, by decide⟩
  have hps : parseFileContent
      (.ok (some ⟨"\x7b\"a\":1\x7d\n\x7b\"b\":2\x7d\n", "s1"⟩)) (detectFormat "s.jsonl") =
      [.obj [("a", .num 1)], .obj [("b", .num 2)]] := by decide
  have hpd : parseFileContent (.ok none) (detectFormat "d.jsonl") = [] := rfl
  have hpart : processTransfer [Json.obj [("a", .num 1)], .obj [("b", .num 2)]]
      (fun d => (objGet (docFields d) "a").isSome) =
      ([.obj [("a", .num 1)]], [.obj [("b", .num 2)]]) := by decide
  have hdd : detectFormat "d.jsonl" = "jsonl" := by decide
  have hds : detectFormat "s.jsonl" = "jsonl" := by decide
  simp only [executeAtomicTransfer, hps, hpd, hpart]
  simp [convertDocuments, hdd, hds, hgf, jsonlFormatter, conversionPipeline,
    stampTimestamp, objSet, docFields, jsonlSerialize_objA, jsonlSerialize_objB,
    atomicCommit, capturedSha]
  decide

def c1conv : ConversionOptions := ⟨⟨none, some "ts"⟩, "jsonl", "jsonl", none, none, none⟩

def c1pred : Json → Bool := fun d => (objGet (docFields d) "a").isSome

def c1src : FileResult := .ok (some ⟨"\x7b\"a\":1\x7d\n\x7b\"b\":2\x7d\n", "s1"⟩)

/-- C1 amended: for every conversion transfer — any predicate, any
conversion options, any optional transform — whose predicate matches at
least one source document, the commit is built as follows: the matching
documents (and only they) first receive the `transform`; the destination
content is the conversion pipeline over existing-destination-plus-
transformed-matching documents; and the content written back to the
source is the conversion pipeline (filter, field mapping, timestamp
stamping) applied to the untransformed remaining documents — not the
remaining documents serialized unchanged, though the transform itself
never touches them. -/
theorem claim_c1_conversion_pipeline (sourcePath destPath : String)
    (srcRes destRes : FileResult) (pred : Json → Bool) (conv : ConversionOptions)
    (tr : Option (Json → Json)) (now : String) (C D : String)
    (hmatch : ¬((parseFileContent srcRes (detectFormat sourcePath)).filter pred).length = 0)
    (hC : convertDocuments
        ((parseFileContent srcRes (detectFormat sourcePath)).filter (not ∘ pred))
        { conv with sourceFormat := detectFormat sourcePath,
                    targetFormat := detectFormat sourcePath } now = .ok C)
    (hD : convertDocuments
        (parseFileContent destRes (detectFormat destPath) ++
          applyTransform tr ((parseFileContent srcRes (detectFormat sourcePath)).filter pred))
        { conv with sourceFormat := detectFormat destPath,
                    targetFormat := detectFormat destPath } now = .ok D) :
    executeAtomicTransfer sourcePath destPath srcRes destRes ⟨pred, some conv, tr⟩ now =
      atomicCommit ⟨sourcePath, destPath, C, D, capturedSha srcRes, capturedSha destRes⟩
        (applyTransform tr
          ((parseFileContent srcRes (detectFormat sourcePath)).filter pred)).length := by
  cases tr with
  | none =>
    simp only [applyTransform] at hD ⊢
    simp only [executeAtomicTransfer, processTransfer, List.partition_eq_filter_filter]
    rw [if_neg hmatch]
    simp only [hD, hC]
  | some t =>
    simp only [applyTransform] at hD ⊢
    simp only [executeAtomicTransfer, processTransfer, List.partition_eq_filter_filter]
    rw [if_neg hmatch]
    simp only [hD, hC]

def c1tr : Option (Json → Json) := some (fun _ => Json.obj [("k", Json.num 3)])

theorem emit_objK :
    emitVal [] [] (.obj [("k", .num 3), ("ts", .str "T0")]) =
      ("\x7b\"k\":3,\"ts\":\"T0\"\x7d" : String).data := by
  simp [emitVal, emitMember, emitObjTail, colonSp, nlInd, quoteChars, intChars, natChars]
  decide

theorem jsonlSerialize_objK :
    jsonlSerialize [.obj [("k", .num 3), ("ts", .str "T0")]] =
      "\x7b\"k\":3,\"ts\":\"T0\"\x7d\n" := by
  simp [jsonlSerialize, List.intercalate, emit_objK]

/-- C1 witness: the amended theorem at a concrete input with a nontrivial
transform — the matching document is transformed (and timestamp-stamped)
into the destination, while the source write carries the untransformed but
timestamp-stamped remaining document. -/
theorem claim_c1_witness :
    (¬((parseFileContent c1src (detectFormat "s.jsonl")).filter c1pred).length = 0) ∧
    convertDocuments
      ((parseFileContent c1src (detectFormat "s.jsonl")).filter (not ∘ c1pred))
      { c1conv with sourceFormat := detectFormat "s.jsonl",
                    targetFormat := detectFormat "s.jsonl" } "T0" =
      .ok "\x7b\"b\":2,\"ts\":\"T0\"\x7d\n" ∧
    convertDocuments
      (parseFileContent (.ok none) (detectFormat "d.jsonl") ++
        applyTransform c1tr ((parseFileContent c1src (detectFormat "s.jsonl")).filter c1pred))
      { c1conv with sourceFormat := detectFormat "d.jsonl",
                    targetFormat := detectFormat "d.jsonl" } "T0" =
      .ok "\x7b\"k\":3,\"ts\":\"T0\"\x7d\n" ∧
    executeAtomicTransfer "s.jsonl" "d.jsonl" c1src (.ok none)
        ⟨c1pred, some c1conv, c1tr⟩ "T0" =
      atomicCommit ⟨"s.jsonl", "d.jsonl", "\x7b\"b\":2,\"ts\":\"T0\"\x7d\n",
          "\x7b\"k\":3,\"ts\":\"T0\"\x7d\n", capturedSha c1src, capturedSha (.ok none)⟩
        (applyTransform c1tr
          ((parseFileContent c1src (detectFormat "s.jsonl")).filter c1pred)).length := by
  have hgf : getFormatter "jsonl" = .ok jsonlFormatter := rfl
  have hds : detectFormat "s.jsonl" = "jsonl" := by decide
  have hdd : detectFormat "d.jsonl" = "jsonl" := by decide
  have h1 : ¬((parseFileContent c1src (detectFormat "s.jsonl")).filter c1pred).length = 0 := by
    decide
  have hFr : (parseFileContent c1src (detectFormat "s.jsonl")).filter (not ∘ c1pred) =
      [.obj [("b", .num 2)]] := by decide
  have hFm : parseFileContent (.ok none) (detectFormat "d.jsonl") ++
      applyTransform c1tr ((parseFileContent c1src (detectFormat "s.jsonl")).filter c1pred) =
      [.obj [("k", .num 3)]] := by decide
  have h2 : convertDocuments
      ((parseFileContent c1src (detectFormat "s.jsonl")).filter (not ∘ c1pred))
      { c1conv with sourceFormat := detectFormat "s.jsonl",
                    targetFormat := detectFormat "s.jsonl" } "T0" =
      .ok "\x7b\"b\":2,\"ts\":\"T0\"\x7d\n" := by
    rw [hFr, hds]
    simp [convertDocuments, c1conv, hgf, jsonlFormatter, conversionPipeline,
      stampTimestamp, objSet, docFields, jsonlSerialize_objB]
  have h3 : convertDocuments
      (parseFileContent (.ok none) (detectFormat "d.jsonl") ++
        applyTransform c1tr ((parseFileContent c1src (detectFormat "s.jsonl")).filter c1pred))
      { c1conv with sourceFormat := detectFormat "d.jsonl",
                    targetFormat := detectFormat "d.jsonl" } "T0" =
      .ok "\x7b\"k\":3,\"ts\":\"T0\"\x7d\n" := by
    rw [hFm, hdd]
    simp [convertDocuments, c1conv, hgf, jsonlFormatter, conversionPipeline,
      stampTimestamp, objSet, docFields, jsonlSerialize_objK]
  exact ⟨h1, h2, h3, claim_c1_conversion_pipeline "s.jsonl" "d.jsonl" c1src (.ok none)
    c1pred c1conv c1tr "T0" "\x7b\"b\":2,\"ts\":\"T0\"\x7d\n" "\x7b\"k\":3,\"ts\":\"T0\"\x7d\n"
    h1 h2 h3⟩

/-! ### Claim C10 -/

theorem emit_objAB :
    emitVal [] [] (.obj [("a", .str "1"), ("b", .str "2")]) =
      ("\x7b\"a\":\"1\",\"b\":\"2\"\x7d" : String).data := by
  simp [emitVal, emitMember, emitObjTail, colonSp, nlInd, quoteChars, intChars, natChars]
  decide

theorem jsonlSerialize_objAB :
    jsonlSerialize [.obj [("a", .str "1"), ("b", .str "2")]] =
      "\x7b\"a\":\"1\",\"b\":\"2\"\x7d\n" := by
  simp [jsonlSerialize, List.intercalate, emit_objAB]

/-- C10 counterexample: "backup.dat" has an unknown suffix, so detection
defaults to "json"; yet `convertFormat` on that very path with
csv-to-jsonl options parses the content with the tabular codec (the cells
come back as strings) and never consults detection — the array-or-scalar
codec would in fact have rejected this content. -/
theorem claim_c10_counterexample :
    detectFormat "backup.dat" = "json" ∧
    convertFormat "backup.dat" "out.jsonl" (some ⟨"a,b\n1,2\n", "s1"⟩)
        ⟨⟨none, none⟩, "csv", "jsonl", none, none, none⟩ "T0" =
      .ok [.create "out.jsonl" "\x7b\"a\":\"1\",\"b\":\"2\"\x7d\n"
        "Convert format: backup.dat -> out.jsonl"] ∧
    jsonFormatterParse "a,b\n1,2\n" = .error "Invalid JSON format" := by
  refine ⟨by decide, ?_, rfl⟩
  have hcsv : csvParse "a,b\n1,2\n" = [.obj [("a", .str "1"), ("b", .str "2")]] := by
    decide
  have hgc : getFormatter "csv" = .ok csvFormatter := rfl
  have hgj : getFormatter "jsonl" = .ok jsonlFormatter := rfl
  simp [convertFormat, convertContent, hgc, hgj, csvFormatter, hcsv,
    conversionPipeline, jsonlFormatter, jsonlSerialize_objAB]

/-- C10 amended: for a path with an unrecognised suffix, `detectFormat`
returns "json" and the registry resolves it to the whole-document
array-or-scalar codec, so the transfer path (which derives both sides'
codecs by detection) parses such a file with that codec; `convertFormat`,
however, never consults detection: its conversion is exactly
`convertContent` under the caller-supplied options, whose source and
target codecs come from `options.sourceFormat` / `options.targetFormat`
alone, whatever the path's suffix. -/
theorem claim_c10_default_codec (path sp dp : String) (srcRes : FileResult)
    (opts : ConversionOptions) (now : String) (f : GHFile)
    (h : toLowerStr (String.mk ((splitOnChar '.' path.data).getLastD [])) ∉
      (["json", "jsonl", "csv", "yaml", "yml"] : List String)) :
    (detectFormat path = "json" ∧ getFormatter (detectFormat path) = .ok jsonFormatter ∧
      parseFileContent srcRes (detectFormat path) = parseFileContent srcRes "json") ∧
    convertFormat sp dp (some f) opts now =
      (convertContent f.content opts now).map
        (fun converted => [RemoteWrite.create dp converted
          ("Convert format: " ++ sp ++ " -> " ++ dp)]) ∧
    convertFormat sp dp none opts now =
      .error ("Source file " ++ sp ++ " not found") := by
  have hd : detectFormat path = "json" := detectFormat_default path h
  refine ⟨⟨hd, by rw [hd]; rfl, by rw [hd]⟩, ?_, rfl⟩
  cases hcc : convertContent f.content opts now with
  | error e => simp [convertFormat, hcc, Except.map]
  | ok c => simp [convertFormat, hcc, Except.map]

/-- C10 witness: the amended theorem at the counterexample input. -/
theorem claim_c10_witness :
    (toLowerStr (String.mk ((splitOnChar '.' "backup.dat".data).getLastD [])) ∉
      (["json", "jsonl", "csv", "yaml", "yml"] : List String)) ∧
    ((detectFormat "backup.dat" = "json" ∧
        getFormatter (detectFormat "backup.dat") = .ok jsonFormatter ∧
        parseFileContent (.ok none) (detectFormat "backup.dat") =
          parseFileContent (.ok none) "json") ∧
      convertFormat "backup.dat" "out.jsonl" (some ⟨"a,b\n1,2\n", "s1"⟩)
          ⟨⟨none, none⟩, "csv", "jsonl", none, none, none⟩ "T0" =
        (convertContent ("a,b\n1,2\n" : String)
            (⟨⟨none, none⟩, "csv", "jsonl", none, none, none⟩ : ConversionOptions)
            "T0").map
          (fun converted => [RemoteWrite.create "out.jsonl" converted
            ("Convert format: " ++ "backup.dat" ++ " -> " ++ "out.jsonl")]) ∧
      convertFormat "backup.dat" "out.jsonl" none
          ⟨⟨none, none⟩, "csv", "jsonl", none, none, none⟩ "T0" =
        .error ("Source file " ++ "backup.dat" ++ " not found")) :=
  ⟨by decide, claim_c10_default_codec "backup.dat" "backup.dat" "out.jsonl" (.ok none)
    ⟨⟨none, none⟩, "csv", "jsonl", none, none, none⟩ "T0" ⟨"a,b\n1,2\n", "s1"⟩
    (by decide)⟩

end GithubDB
